import Mathlib

/-! OpenHashTab: hex digest helpers and main-dialog bookkeeping

A shallow embedding of `utl.h` (`hex`, `unhex`, `HashBytesToString`,
`HashStringToBytes`) and of the message handlers of `MainDialog.cpp` that
keep the aggregate counters and the digest check, followed by theorems
about them.

Conventions of the embedding.

* A character of either instantiated `Char` type (`char`, `wchar_t`) is an
  `Int`; a byte (`uint8_t`) is a `Nat`, reduced `% 256` wherever the source
  converts to `uint8_t`.
* A C string handed to a function is the list of characters stored at the
  pointer.  The terminating NUL that `c_str()` guarantees is implicit: a read
  at the end of the list sees `0`.  A list may also hold an explicit `0`, in
  which case every reader stops there, as the C code does.
-/

namespace utl

/-- The two character types the templates of `utl.h` are instantiated with:
`char` (8 bit, signed) and `wchar_t` (16 bit, unsigned). -/
inductive CharKind where
  | narrow
  | wide
  deriving DecidableEq, Repr

/-- Conversion of an `int` value to the character type. -/
def CharKind.conv : CharKind → Int → Int
  | CharKind.narrow, x => (x + 128) % 256 - 128
  | CharKind.wide, x => x % 65536

/-- Embedding of `utl::hex<Char>(uint8_t n, bool upper)`. -/
def hex (k : CharKind) (n : Nat) (upper : Bool) : Int :=
  if n < 0xA then
    k.conv (0x30 + (n : Int))
  else
    k.conv ((if upper then 0x41 else 0x61) + ((n : Int) - 0xA))

/-- Embedding of `utl::unhex<Char>(Char ch)`; the three `TEST_RANGE` lines are
expanded. -/
def unhex (ch : Int) : Nat :=
  if ch ≥ 0x80 ∨ ch ≤ 0 then
    0xFF
  else
    let c : Nat := ch.toNat % 256
    if c ≥ 0x30 ∧ c ≤ 0x39 then (c - 0x30 + 0x0) % 256
    else if c ≥ 0x61 ∧ c ≤ 0x66 then (c - 0x61 + 0xa) % 256
    else if c ≥ 0x41 ∧ c ≤ 0x46 then (c - 0x41 + 0xA) % 256
    else 0xFF

/-- Embedding of `utl::HashBytesToString<Char>(str, hash, upper)`: the
characters stored through `str`, the final NUL included. -/
def HashBytesToString (k : CharKind) (hash : List Nat) (upper : Bool) : List Int :=
  hash.foldl
    (fun str b => str ++ [hex k ((b >>> 4) % 256) upper, hex k ((b &&& 0xF) % 256) upper])
    []
  ++ [k.conv 0]

/-- First loop of `utl::HashStringToBytes`: advance `it` while the character
is neither NUL nor a hex digit. -/
def skipNonHex : List Int → List Int
  | [] => []
  | c :: rest =>
    if c = 0 ∨ unhex c ≠ 0xFF then c :: rest else skipNonHex rest

/-- Second loop of `utl::HashStringToBytes`, started at index `i` with the
pending high nibble `byte` and the bytes `res` pushed so far; the list is
`it[i], it[i+1], ...`. -/
def decodeFrom : List Int → Nat → Nat → List Nat → List Nat
  | [], _, _, res => res
  | c :: rest, i, byte, res =>
    if c = 0 then
      res
    else
      let nibble := unhex c
      if nibble = 0xFF then
        if i % 2 = 0 then res else []
      else
        if i % 2 = 0 then
          decodeFrom rest (i + 1) ((nibble <<< 4) % 256) res
        else
          decodeFrom rest (i + 1) byte (res ++ [(byte ||| nibble) % 256])

/-- Embedding of `utl::HashStringToBytes<Char>(str)`. -/
def HashStringToBytes (str : List Int) : List Nat :=
  decodeFrom (skipNonHex str) 0 0 []

/-- Characters of a string literal, as character codes. -/
def lit (s : String) : List Int :=
  s.toList.map fun ch => (ch.toNat : Int)

/-- Hex digits: `0`-`9`, `a`-`f`, `A`-`F`. -/
def IsHexDigit (c : Int) : Prop :=
  (0x30 ≤ c ∧ c ≤ 0x39) ∨ (0x61 ≤ c ∧ c ≤ 0x66) ∨ (0x41 ≤ c ∧ c ≤ 0x46)

instance (c : Int) : Decidable (IsHexDigit c) := by
  unfold IsHexDigit; infer_instance

/-- A byte vector: every element fits `uint8_t`. -/
def IsBytes (b : List Nat) : Prop := ∀ x ∈ b, x < 256

instance (b : List Nat) : Decidable (IsBytes b) := by
  unfold IsBytes; infer_instance

/-- The digest part of a string: the first maximal run of hex digits, after
the leading non-hex characters are skipped. -/
def digestPart (s : List Int) : List Int :=
  (s.dropWhile fun c => !decide (IsHexDigit c)).takeWhile fun c => decide (IsHexDigit c)

/-- The string with every ASCII letter changed to the other case, one
character at a time. -/
def swapCase (c : Int) : Int :=
  if 0x61 ≤ c ∧ c ≤ 0x7A then c - 0x20
  else if 0x41 ≤ c ∧ c ≤ 0x5A then c + 0x20
  else c

/-- The hex digit that stands for the nibble `n`, read off the digit table. -/
def hexDigitChar (n : Nat) (upper : Bool) : Int :=
  (lit (if upper then "0123456789ABCDEF" else "0123456789abcdef")).getD n 0

end utl

namespace utl

/-- What a reader of the C string `s.c_str()` sees: the characters before
the first NUL. -/
def cstr (s : List Int) : List Int :=
  s.takeWhile fun c => decide (c ≠ 0)

end utl

namespace utl

/-- Table `icon_sizes` of `utl::FloorIconSize`. -/
def icon_sizes : List Int := [256, 192, 128, 96, 64, 48, 40, 32, 24, 16]

/-- Loop of `utl::FloorIconSize` over the table entries still to visit: the
first entry that `size` reaches replaces it and ends the loop. -/
def floorLoop : List Int → Int → Int
  | [], size => size
  | v :: rest, size => if size ≥ v then v else floorLoop rest size

/-- Embedding of `utl::FloorIconSize(long size)`. -/
def FloorIconSize (size : Int) : Int :=
  floorLoop icon_sizes size

/-- Embedding of `utl::Version`; the three members are `uint16_t`. -/
structure Version where
  major : Nat
  minor : Nat
  patch : Nat
  deriving DecidableEq, Repr

/-- The members fit `uint16_t`. -/
def Version.InRange (v : Version) : Prop :=
  v.major < 2 ^ 16 ∧ v.minor < 2 ^ 16 ∧ v.patch < 2 ^ 16

instance (v : Version) : Decidable v.InRange := by
  unfold Version.InRange; infer_instance

/-- Embedding of `Version::AsNumber()`, in `uint64_t` arithmetic. -/
def Version.AsNumber (v : Version) : Nat :=
  (((v.major <<< 32) % 2 ^ 64) ||| ((v.minor <<< 16) % 2 ^ 64)) ||| v.patch

/-- Embedding of `Version::operator==`. -/
def Version.eq (a b : Version) : Bool :=
  decide (a.AsNumber = b.AsNumber)

/-- Embedding of `Version::operator<`. -/
def Version.lt (a b : Version) : Bool :=
  decide (a.AsNumber < b.AsNumber)

/-- Embedding of `Version::operator>`. -/
def Version.gt (a b : Version) : Bool :=
  decide (a.AsNumber > b.AsNumber)

end utl

namespace utl

/-- The hex string of a byte vector in the given casing: two digits per byte,
high nibble first, bytes in order. -/
def hexString : List Nat → Bool → List Int
  | [], _ => []
  | b :: rest, upper =>
    hexDigitChar (b / 16) upper :: hexDigitChar (b % 16) upper :: hexString rest upper

end utl

namespace utl

/-- The C library function `wcsncmp(a, b, n)` on C strings: the sign of the
first difference within `n` characters, `0` when there is none before a NUL. -/
def wcsncmp : List Int → List Int → Nat → Int
  | _, _, 0 => 0
  | a, b, n + 1 =>
    if a.headD 0 < b.headD 0 then -1
    else if a.headD 0 > b.headD 0 then 1
    else if a.headD 0 = 0 then 0
    else wcsncmp a.tail b.tail n

/-- The array `prefix` of `utl::MakePathLongCompatible`, without its NUL: two
backslashes. -/
def uncStart : List Int := [0x5C, 0x5C]

/-- The string that `utl::MakePathLongCompatible` inserts: backslash,
backslash, question mark, backslash. -/
def longPathStart : List Int := [0x5C, 0x5C, 0x3F, 0x5C]

/-- Embedding of `utl::MakePathLongCompatible(std::wstring file)`. -/
def MakePathLongCompatible (file : List Int) : List Int :=
  let prefixlen := uncStart.length
  if file.length < prefixlen ∨ 0 ≠ wcsncmp file uncStart prefixlen then
    longPathStart ++ file
  else
    file

/-- Search of `std::wstring::find_last_not_of` below index `n`: the greatest
index under `n` whose character is not in `chars`, `none` for `npos`. -/
def findLastNotOfBelow (s chars : List Int) : Nat → Option Nat
  | 0 => none
  | n + 1 =>
    if s.getD n 0 ∈ chars then findLastNotOfBelow s chars n else some n

/-- Embedding of `std::wstring::find_last_not_of(chars)`. -/
def find_last_not_of (s chars : List Int) : Option Nat :=
  findLastNotOfBelow s chars s.length

/-- Embedding of `utl::ErrorToString(DWORD error)`, with `m` the `size`
characters that `FormatMessageW` stores for the error. -/
def ErrorToString (m : List Int) : List Int :=
  match find_last_not_of m [0x0D, 0x0A] with
  | some pos => m.take pos
  | none => m

/-- A character is a line break: CR or LF. -/
def IsNewline (x : Int) : Prop := x = 0x0D ∨ x = 0x0A

instance (x : Int) : Decidable (IsNewline x) := by
  unfold IsNewline; infer_instance

end utl

/-! ## Main dialog -/

/-- Constants that `MainDialog.cpp` takes from the headers `FileHashTask.h`
and `Hasher.h`; they are parameters of the model. -/
structure Consts where
  /-- Value of `FileHashTask::MatchState_None` -/
  MatchState_None : Int
  /-- Value of `FileHashTask::MatchState_Mismatch` -/
  MatchState_Mismatch : Int
  /-- Value of `HashAlgorithm::k_count` -/
  k_count : Nat

/-- What `MainDialog.cpp` reads from a `FileHashTask`. -/
structure FileHashTask where
  /-- Result of `GetError()`; `ERROR_SUCCESS` is `0` -/
  error : Nat
  /-- Result of `GetMatchState()` -/
  matchState : Int
  /-- Entry `GetHashResult()[i]`, one byte vector per algorithm index -/
  hashResult : Nat → List Nat
  /-- Result of `GetDisplayName()` -/
  displayName : List Int

/-- The fields of `Settings` that `MainDialog.cpp` reads. -/
structure Settings where
  display_uppercase : Bool
  algorithms : Nat → Bool
  virustotal_tos : Bool

/-! ## Reputation lookup -/

namespace vt

/-- A JSON property as `vt::Query` looks at it: its `json_getType` and, for
the types it reads, the value. A text holds the characters of the C string
that `json_getValue` returns. -/
inductive JsonValue where
  | boolean (b : Bool)
  | text (s : List Int)
  | integer (n : Int)
  | other

/-- An element of the `data` array: what `json_getProperty` returns for each
of the five property names that `vt::Query` asks for. -/
structure JsonChild where
  found : Option JsonValue
  hash : Option JsonValue
  permalink : Option JsonValue
  positives : Option JsonValue
  total : Option JsonValue

/-- The `data` property of the root of the reply. The loop of `vt::Query`
reads the first child before testing it, so an array is given by its first
element and the remaining ones. -/
inductive JsonData where
  /-- no `data` property, or one that is not an array -/
  | malformed
  | array (first : JsonChild) (rest : List JsonChild)

/-- What `DoHTTPS` and the parser give back for the request. -/
structure Reply where
  error_code : Nat
  http_code : Int
  /-- The root of `json_parser`, `none` when `parser.root()` is null -/
  root : Option JsonData

/-- The structure `vt::Result`; `file` is null until `vt::Query` sets it. -/
structure Result where
  file : Option FileHashTask
  found : Bool
  permalink : List Int
  positives : Int
  total : Int

/-- The `std::runtime_error` cases of `vt::Query`. -/
inductive QueryError where
  | https (error_code : Nat)
  | status (http_code : Int)
  | jsonParse
  | malformedReply

/-- Conversion `static_cast<int>` of a 64-bit integer. -/
def toInt (n : Int) : Int :=
  (n + 2 ^ 31) % 2 ^ 32 - 2 ^ 31

/-- The value `res` that one iteration of the reply loop stores, for a child
whose `found` property is the boolean `b`. -/
def childResult (j_child : JsonChild) (b : Bool) : Result :=
  if b then
    { file := none
      found := true
      permalink := (match j_child.permalink with
        | some (JsonValue.text p) => p
        | _ => [])
      positives := (match j_child.positives with
        | some (JsonValue.integer n) => toInt n
        | _ => 0)
      total := (match j_child.total with
        | some (JsonValue.integer n) => toInt n
        | _ => 0) }
  else
    { file := none, found := false, permalink := [], positives := 0, total := 0 }

/-- One iteration of the reply loop of `vt::Query` on the map `result_map`,
a map from hash strings to results; `result_map[key] = res` overwrites. -/
def recordChild (result_map : List Int → Option Result) (j_child : JsonChild) :
    List Int → Option Result :=
  match j_child.found, j_child.hash with
  | some (JsonValue.boolean b), some (JsonValue.text h) =>
    fun key => if key = h then some (childResult j_child b) else result_map key
  | _, _ => result_map

/-- The string in the buffer `hash` that `vt::Query` looks up for a task:
`HashBytesToString` with its default upper-case flag, on `char`. -/
def hashKey (algo : Nat) (f : FileHashTask) : List Int :=
  utl.cstr (utl.HashBytesToString utl.CharKind.narrow (f.hashResult algo) true)

/-- Last loop of `vt::Query`: one pass over the tasks, appending a copy of
the stored result, with `file` set, for each task whose hash string is a key
of the map. -/
def collect (result_map : List Int → Option Result) (algo : Nat)
    (files : List FileHashTask) : List Result :=
  files.foldl
    (fun result f =>
      match result_map (hashKey algo f) with
      | some res => result ++ [{ res with file := some f }]
      | none => result)
    []

/-- Embedding of `vt::Query(files, algo)`, with `reply` the answer of the
server to the request. -/
def Query (files : List FileHashTask) (algo : Nat) (reply : Reply) :
    Except QueryError (List Result) :=
  if reply.error_code ≠ 0 then
    Except.error (QueryError.https reply.error_code)
  else if reply.http_code ≠ 200 then
    Except.error (QueryError.status reply.http_code)
  else
    match reply.root with
    | none => Except.error QueryError.jsonParse
    | some JsonData.malformed => Except.error QueryError.malformedReply
    | some (JsonData.array first rest) =>
      Except.ok (collect ((first :: rest).foldl recordChild fun _ => none) algo files)

/-- The hash keys recorded from a reply: the `hash` texts of the elements
that have a boolean `found` and a text `hash`. -/
def recordedKeys (children : List JsonChild) : List (List Int) :=
  children.filterMap fun j_child =>
    match j_child.found, j_child.hash with
    | some (JsonValue.boolean _), some (JsonValue.text h) => some h
    | _, _ => none

end vt

/-- Text of the algorithm column of a list row. -/
inductive AlgorithmText where
  /-- Name `utl::UTF8ToWide(HashAlgorithm::g_hashers[i].GetName())` -/
  | hasherName (i : Nat)
  /-- String `utl::GetString(IDS_ERROR)` -/
  | errorLabel
  /-- String `utl::FormatString(L"VT (%d/%d)", positives, total)` -/
  | vtCounts (positives total : Int)
  /-- String `L"VT"` -/
  | vt
  deriving DecidableEq

/-- Text of the hash column of a list row. -/
inductive HashText where
  /-- the hex string in `hash_str` -/
  | digest (text : List Int)
  /-- String `utl::ErrorToString(error)` -/
  | errorMessage (error : Nat)
  /-- String `utl::UTF8ToWide(r.permalink.c_str())` -/
  | permalink (text : List Int)
  /-- String `L"Not found"` -/
  | notFound
  deriving DecidableEq

/-- One row of the hash list, as `AddItemToFileList` fills it. The `lparam`
built by `file->ToLparam(i)` is kept as the pair it encodes. -/
structure ListRow where
  filename : List Int
  algorithm : AlgorithmText
  hash : HashText
  lparam : Option (FileHashTask × Nat)

/-- Text of `STATIC_PROCESSING`. -/
inductive ProcessingText where
  /-- text set outside the handlers modelled here -/
  | other
  /-- String `utl::GetString(IDS_COPIED)`, set through `SetTempStatus` -/
  | copied
  /-- String `utl::GetString(IDS_PROCESSING)`, set by `OnInitDialog` -/
  | processing
  /-- Format `"%s (%u/%u/%u/%u)"` with `IDS_DONE` when `finished`, else
  `IDS_PROCESSING` -/
  | status (finished : Bool) (count_match count_mismatch count_unknown count_error : Nat)

/-- Text of `STATIC_CHECK_RESULT`. -/
inductive CheckResultText where
  /-- text set outside the handlers modelled here -/
  | other
  /-- String `algorithm_name + L" / " + file->GetDisplayName()` for algorithm
  index `i` -/
  | found (i : Nat) (displayName : List Int)
  /-- String `utl::GetString(IDS_NOMATCH)` -/
  | nomatch
  deriving DecidableEq

/-- State of the main dialog: the members of `MainDialog`, the coordinator
data it reaches through `_prop_page`, and the state of its controls. The four
counters are declared in `MainDialog.h`; they count completed files and are
kept as natural numbers. -/
structure MainDialog where
  /-- List `_prop_page->GetFiles()` -/
  files : List FileHashTask
  /-- Member `_prop_page->settings` -/
  settings : Settings
  _count_match : Nat
  _count_mismatch : Nat
  _count_unknown : Nat
  _count_error : Nat
  _finished : Bool
  _temporary_status : Bool
  /-- rows of `_hwnd_HASH_LIST` -/
  HASH_LIST : List ListRow
  STATIC_PROCESSING : ProcessingText
  STATIC_CHECK_RESULT : CheckResultText
  /-- window text of `_hwnd_EDIT_HASH` -/
  EDIT_HASH : List Int
  BUTTON_SETTINGS_enabled : Bool
  BUTTON_EXPORT_enabled : Bool
  BUTTON_CLIPBOARD_enabled : Bool
  BUTTON_VT_enabled : Bool
  EDIT_HASH_enabled : Bool
  PROGRESS_shown : Bool
  BUTTON_CANCEL_shown : Bool

/-- The enumeration `HashColorType` of `MainDialog.cpp`. -/
inductive HashColorType where
  | Error
  | Match
  | Insecure
  | Mismatch
  | Unknown
  deriving DecidableEq, Repr

/-- What the colour code takes from `Hasher.h` and from the build target. -/
structure Hashers where
  /-- Result of `HashAlgorithm::g_hashers[i].IsSecure()` -/
  IsSecure : Nat → Bool
  /-- Width of `size_t` in bits -/
  size_bits : Nat

/-- The colours `ColorLine` stores in the draw structure: `clrText` and,
when it is written, `clrTextBk`, each as the three arguments of `RGB`. -/
structure LineColors where
  clrText : Nat × Nat × Nat
  clrTextBk : Option (Nat × Nat × Nat)
  deriving DecidableEq, Repr

/-- Embedding of `ColorLine`: `none` is the return value `false` (system
colours), `some` the colours written before it returns `true`. -/
def ColorLine : HashColorType → Option LineColors
  | HashColorType.Unknown => none
  | HashColorType.Error => some ⟨(255, 55, 23), none⟩
  | HashColorType.Match => some ⟨(255, 255, 255), some (45, 170, 23)⟩
  | HashColorType.Insecure => some ⟨(255, 255, 255), some (170, 82, 23)⟩
  | HashColorType.Mismatch => some ⟨(255, 255, 255), some (230, 55, 23)⟩

/-- Embedding of `HashColorTypeForFile(file, hasher)`; `static_cast<size_t>`
of the `int` match state is the value modulo `2 ^ size_bits`. -/
def HashColorTypeForFile (c : Consts) (g : Hashers) (file : FileHashTask) (hasher : Nat) :
    HashColorType :=
  if file.error ≠ 0 then
    HashColorType.Error
  else
    let m := file.matchState
    if m = c.MatchState_Mismatch then
      HashColorType.Mismatch
    else if m ≠ c.MatchState_None ∧ (m % 2 ^ g.size_bits).toNat = hasher then
      if g.IsSecure hasher then HashColorType.Match else HashColorType.Insecure
    else
      HashColorType.Unknown

namespace MainDialog

/-- Embedding of `MainDialog::AddItemToFileList`: the item is inserted at index `INT_MAX`,
that is, after the rows already there. -/
def AddItemToFileList (d : MainDialog) (filename : List Int) (algorithm : AlgorithmText)
    (hash : HashText) (lparam : Option (FileHashTask × Nat)) : MainDialog :=
  { d with HASH_LIST := d.HASH_LIST ++ [⟨filename, algorithm, hash, lparam⟩] }

/-- Embedding of `MainDialog::UpdateDefaultStatus(bool force_reset)`. Calls
written without an argument take the default declared in `MainDialog.h`, which
is modelled as `false`. -/
def UpdateDefaultStatus (d : MainDialog) (force_reset : Bool) : MainDialog :=
  let d1 := if force_reset then { d with _temporary_status := false } else d
  if !d1._temporary_status then
    { d1 with STATIC_PROCESSING :=
        (ProcessingText.status d1._finished d1._count_match d1._count_mismatch
          d1._count_unknown d1._count_error) }
  else
    d1

/-- Body of the `for` loop over the algorithms in `MainDialog::OnFileFinished`. -/
def addResultRow (file : FileHashTask) (d : MainDialog) (i : Nat) : MainDialog :=
  let result := file.hashResult i
  if result ≠ [] then
    let hash_str := utl.HashBytesToString utl.CharKind.wide result d.settings.display_uppercase
    d.AddItemToFileList (utl.cstr file.displayName) (AlgorithmText.hasherName i)
      (HashText.digest (utl.cstr hash_str)) (some (file, i))
  else
    d

/-- Embedding of `MainDialog::OnFileFinished`, with `file` the task behind
`lparam`. -/
def OnFileFinished (c : Consts) (d : MainDialog) (file : FileHashTask) : MainDialog :=
  if file.error = 0 then
    let d1 :=
      if file.matchState = c.MatchState_None then
        { d with _count_unknown := d._count_unknown + 1 }
      else if file.matchState = c.MatchState_Mismatch then
        { d with _count_mismatch := d._count_mismatch + 1 }
      else
        { d with _count_match := d._count_match + 1 }
    let d2 := (List.range c.k_count).foldl (addResultRow file) d1
    d2.UpdateDefaultStatus false
  else
    let d1 := { d with _count_error := d._count_error + 1 }
    let d2 := d1.AddItemToFileList (utl.cstr file.displayName) AlgorithmText.errorLabel
      (HashText.errorMessage file.error) (some (file, 0))
    d2.UpdateDefaultStatus false

/-- Inner loop of `MainDialog::OnHashEditChanged`: `i` runs upwards while
`n` indices are left below `k_count`; the first `i` whose result is non-empty
and equal to `find_hash` is returned. -/
def findAlgorithm (result : Nat → List Nat) (find_hash : List Nat) : Nat → Nat → Option Nat
  | 0, _ => none
  | n + 1, i =>
    if result i ≠ [] ∧ result i = find_hash then some i
    else findAlgorithm result find_hash n (i + 1)

/-- Outer loop of `MainDialog::OnHashEditChanged` over the files, `t` being the
position of the head of the list: the first file with a hit, its position and
the algorithm index of the hit. -/
def findFile (k_count : Nat) (find_hash : List Nat) :
    List FileHashTask → Nat → Option (Nat × Nat × FileHashTask)
  | [], _ => none
  | file :: rest, t =>
    match findAlgorithm file.hashResult find_hash k_count 0 with
    | some i => some (t, i, file)
    | none => findFile k_count find_hash rest (t + 1)

/-- Embedding of `MainDialog::OnHashEditChanged`. -/
def OnHashEditChanged (c : Consts) (d : MainDialog) : MainDialog :=
  let find_hash := utl.HashStringToBytes d.EDIT_HASH
  match findFile c.k_count find_hash d.files 0 with
  | some (_, i, file) =>
    { d with STATIC_CHECK_RESULT := CheckResultText.found i file.displayName }
  | none =>
    { d with STATIC_CHECK_RESULT := CheckResultText.nomatch }

/-- Embedding of `MainDialog::OnAllFilesFinished`, with `clip` the text that
`utl::GetClipboardText` returns. -/
def OnAllFilesFinished (c : Consts) (d : MainDialog) (clip : List Int) : MainDialog :=
  let d1 := { d with
    _finished := true
    BUTTON_SETTINGS_enabled := true
    BUTTON_EXPORT_enabled := true
    BUTTON_CLIPBOARD_enabled := true
    BUTTON_VT_enabled := true
    EDIT_HASH_enabled := true
    PROGRESS_shown := false
    BUTTON_CANCEL_shown := false }
  let d2 := d1.UpdateDefaultStatus false
  let find_hash := utl.HashStringToBytes clip
  if find_hash.length ≥ 4 then
    OnHashEditChanged c { d2 with EDIT_HASH := utl.cstr clip }
  else
    d2

/-- The indices that `HashAlgorithm::IdxByName` returns for the three names
`OnVTClicked` asks for. -/
structure VTIndices where
  SHA256 : Nat
  SHA1 : Nat
  MD5 : Nat

/-- A message box shown by `OnVTClicked`. -/
inductive VTMessage where
  /-- Text `L"No compatible algorithm"` -/
  | noCompatibleAlgorithm
  /-- Text of the caught `std::runtime_error` -/
  | runtimeError (e : vt.QueryError)

/-- Embedding of `vt::CheckForToS`, with `answerYes` telling whether the
message box is answered with `IDYES`: the settings afterwards and the value
returned. -/
def CheckForToS (settings : Settings) (answerYes : Bool) : Settings × Bool :=
  let settings1 :=
    if !settings.virustotal_tos then
      (if answerYes then { settings with virustotal_tos := true } else settings)
    else
      settings
  (settings1, settings1.virustotal_tos)

/-- The list `l` that `OnVTClicked` builds from the files of the coordinator. -/
def vtTaskList (files : List FileHashTask) : List FileHashTask :=
  files.foldl (fun l f => if f.error = 0 then l ++ [f] else l) []

/-- The row `OnVTClicked` adds for one result `r`. -/
def addVTRow (d : MainDialog) (r : vt.Result) : MainDialog :=
  d.AddItemToFileList
    (match r.file with
      | some f => utl.cstr f.displayName
      | none => [])
    (if r.found then AlgorithmText.vtCounts r.positives r.total else AlgorithmText.vt)
    (if r.found then HashText.permalink r.permalink else HashText.notFound)
    none

/-- The `try` block of `OnVTClicked` and its `catch`, given what `vt::Query`
returned or threw. -/
def vtOutcome (d : MainDialog) :
    Except vt.QueryError (List vt.Result) → MainDialog × Option VTMessage
  | Except.ok result =>
    ({ result.foldl addVTRow d with BUTTON_VT_enabled := false }, none)
  | Except.error e => (d, some (VTMessage.runtimeError e))

/-- Embedding of `MainDialog::OnVTClicked`, with the answer to the terms of
service box and the reply of the server: the dialog afterwards and the message
box shown, if any. -/
def OnVTClicked (v : VTIndices) (d : MainDialog) (answerYes : Bool) (reply : vt.Reply) :
    MainDialog × Option VTMessage :=
  let tos := CheckForToS d.settings answerYes
  let d1 := { d with settings := tos.1 }
  if tos.2 then
    match [v.SHA256, v.SHA1, v.MD5].find? fun a => d1.settings.algorithms a with
    | none => (d1, some VTMessage.noCompatibleAlgorithm)
    | some algo => vtOutcome d1 (vt.Query (vtTaskList d1.files) algo reply)
  else
    (d1, none)

/-- Embedding of `MainDialog::SetTempStatus` for the status `IDS_COPIED`. -/
def SetTempStatus (d : MainDialog) : MainDialog :=
  { d with _temporary_status := true, STATIC_PROCESSING := ProcessingText.copied }

/-- Embedding of `MainDialog::OnStatusUpdateTimer`. -/
def OnStatusUpdateTimer (d : MainDialog) : MainDialog :=
  d.UpdateDefaultStatus true

/-- Embedding of `MainDialog::OnSettingsClicked`: the modal settings dialog
works on `_prop_page->settings`; `edited` is what it leaves there. -/
def OnSettingsClicked (d : MainDialog) (edited : Settings) : MainDialog :=
  { d with settings := edited }

/-- Embedding of `MainDialog::CustomDrawListView` for the hash column of the
row `item`: the colours it sets, `none` for the default colours. -/
def CustomDrawListView (c : Consts) (g : Hashers) (d : MainDialog) (item : Nat) :
    Option LineColors :=
  match d.HASH_LIST[item]? with
  | none => none
  | some row =>
    match row.lparam with
    | none => none
    | some (file, hasher) => ColorLine (HashColorTypeForFile c g file hasher)

/-- Embedding of `MainDialog::OnInitDialog`. The coordinator is given by what
`_prop_page->AddFiles()` leaves: the file list `files` and the enabled
algorithms `algorithms`, which that call may change. The handler sets the text
of `STATIC_PROCESSING`, fills the list columns and the export combo box, which
are not part of the state, and starts the processing; it does not touch the
enabled state of any button. -/
def OnInitDialog (d : MainDialog) (files : List FileHashTask) (algorithms : Nat → Bool) :
    MainDialog :=
  { d with
    STATIC_PROCESSING := ProcessingText.processing
    files := files
    settings := { d.settings with algorithms := algorithms } }

/-- Embedding of `MainDialog::OnClose`: `DestroyWindow`, no member or control
of the state is written. -/
def OnClose (d : MainDialog) : MainDialog := d

/-- Embedding of `MainDialog::OnNeedAdjust`: `_adapter.Adjust()` moves the
controls, no member or control text of the state is written. -/
def OnNeedAdjust (d : MainDialog) : MainDialog := d

/-- Embedding of `MainDialog::OnFileProgress`: the position of the progress
bar is set, which the state does not keep. -/
def OnFileProgress (d : MainDialog) : MainDialog := d

/-- Embedding of `MainDialog::OnExportClicked`: the sumfile text is written to
a file; the dialog state is only read. -/
def OnExportClicked (d : MainDialog) : MainDialog := d

/-- Embedding of `MainDialog::OnClipboardClicked`: the sumfile text is put on
the clipboard; the dialog state is only read. -/
def OnClipboardClicked (d : MainDialog) : MainDialog := d

/-- Embedding of `MainDialog::OnCancelClicked`: `_prop_page->Cancel(true)`
asks the workers to stop; what they then report arrives as further messages. -/
def OnCancelClicked (d : MainDialog) : MainDialog := d

/-- The messages that `MainDialog::DlgProc` routes to a handler. -/
inductive Msg where
  /-- Message `WM_INITDIALOG`, with the files and enabled algorithms that
  `AddFiles` leaves -/
  | initDialog (files : List FileHashTask) (algorithms : Nat → Bool)
  /-- Message `WM_CLOSE` -/
  | close
  /-- Message `WM_WINDOWPOSCHANGING` or `WM_WINDOWPOSCHANGED` -/
  | needAdjust
  /-- Message `WM_USER_FILE_PROGRESS` -/
  | fileProgress
  /-- Click on the export button -/
  | exportClicked
  /-- Click on the clipboard button -/
  | clipboardClicked
  /-- Click on the cancel button -/
  | cancelClicked
  /-- Message `WM_USER_FILE_FINISHED` for a task -/
  | fileFinished (file : FileHashTask)
  /-- Message `WM_USER_ALL_FILES_FINISHED`, with the clipboard text at that time -/
  | allFilesFinished (clip : List Int)
  /-- Message `WM_TIMER` of the status timer -/
  | statusUpdateTimer
  /-- Notification `EN_CHANGE` of the hash edit box, whose text is now `text` -/
  | hashEditChanged (text : List Int)
  /-- Click on the settings button; `edited` is what the settings dialog leaves -/
  | settingsClicked (edited : Settings)
  /-- Click on the VirusTotal button, with the answers of user and server -/
  | vtClicked (answerYes : Bool) (reply : vt.Reply)
  /-- A double click or menu command of the list that copies text -/
  | listCopied
  /-- Notification `NM_CUSTOMDRAW` for the hash column of a row -/
  | customDraw (item : Nat)

/-- What a handler shows besides the new dialog state. -/
inductive Shown where
  | nothing
  | colors (line : Option LineColors)
  | box (message : Option VTMessage)

/-- Embedding of the routing of `MainDialog::DlgProc` to the handlers. -/
def DlgProc (c : Consts) (g : Hashers) (v : VTIndices) (d : MainDialog) :
    Msg → MainDialog × Shown
  | Msg.initDialog files algorithms => (OnInitDialog d files algorithms, Shown.nothing)
  | Msg.close => (OnClose d, Shown.nothing)
  | Msg.needAdjust => (OnNeedAdjust d, Shown.nothing)
  | Msg.fileProgress => (OnFileProgress d, Shown.nothing)
  | Msg.exportClicked => (OnExportClicked d, Shown.nothing)
  | Msg.clipboardClicked => (OnClipboardClicked d, Shown.nothing)
  | Msg.cancelClicked => (OnCancelClicked d, Shown.nothing)
  | Msg.fileFinished file => (OnFileFinished c d file, Shown.nothing)
  | Msg.allFilesFinished clip => (OnAllFilesFinished c d clip, Shown.nothing)
  | Msg.statusUpdateTimer => (OnStatusUpdateTimer d, Shown.nothing)
  | Msg.hashEditChanged text =>
    (OnHashEditChanged c { d with EDIT_HASH := text }, Shown.nothing)
  | Msg.settingsClicked edited => (OnSettingsClicked d edited, Shown.nothing)
  | Msg.vtClicked answerYes reply =>
    ((OnVTClicked v d answerYes reply).1, Shown.box (OnVTClicked v d answerYes reply).2)
  | Msg.listCopied => (SetTempStatus d, Shown.nothing)
  | Msg.customDraw item => (d, Shown.colors (CustomDrawListView c g d item))

/-- The four aggregate counters: match, mismatch, no-reference, error. -/
inductive Counter where
  | cMatch
  | cMismatch
  | cUnknown
  | cError
  deriving DecidableEq, Repr

/-- Value of one of the four counters. -/
def count (d : MainDialog) : Counter → Nat
  | Counter.cMatch => d._count_match
  | Counter.cMismatch => d._count_mismatch
  | Counter.cUnknown => d._count_unknown
  | Counter.cError => d._count_error

/-- The dominant-classification rule in the priority order of the
specification: Mismatch gives mismatch; else a matching algorithm gives match;
else no reference and no error gives no-reference; else error. -/
def specDominant (c : Consts) (file : FileHashTask) : Counter :=
  if file.matchState = c.MatchState_Mismatch then Counter.cMismatch
  else if file.matchState ≠ c.MatchState_None then Counter.cMatch
  else if file.error = 0 then Counter.cUnknown
  else Counter.cError

/-- The pair (position `t` in the file list, algorithm index `i`) is a hit for
`find_hash`: that task's result for that algorithm is non-empty and byte-equal
to it. -/
def IsHit (c : Consts) (files : List FileHashTask) (find_hash : List Nat) (t i : Nat) : Prop :=
  ∃ file ∈ files[t]?, i < c.k_count ∧
    file.hashResult i ≠ [] ∧ file.hashResult i = find_hash

instance (c : Consts) (files : List FileHashTask) (find_hash : List Nat) (t i : Nat) :
    Decidable (IsHit c files find_hash t i) := by
  unfold IsHit; infer_instance

/-- A dialog before any file has finished, over a given file list. -/
def start (files : List FileHashTask) : MainDialog :=
  { files := files
    settings := ⟨true, fun _ => true, false⟩
    _count_match := 0
    _count_mismatch := 0
    _count_unknown := 0
    _count_error := 0
    _finished := false
    _temporary_status := false
    HASH_LIST := []
    STATIC_PROCESSING := ProcessingText.other
    STATIC_CHECK_RESULT := CheckResultText.other
    EDIT_HASH := []
    BUTTON_SETTINGS_enabled := false
    BUTTON_EXPORT_enabled := false
    BUTTON_CLIPBOARD_enabled := false
    BUTTON_VT_enabled := false
    EDIT_HASH_enabled := false
    PROGRESS_shown := true
    BUTTON_CANCEL_shown := true }

/-- The dialog after `OnFileFinished` has handled the completion events of
`events`, one after the other. -/
def handleAll (c : Consts) (d : MainDialog) (events : List FileHashTask) : MainDialog :=
  events.foldl (OnFileFinished c) d

/-- The counter that the tests of `OnFileFinished` select for a task. -/
def counterOf (c : Consts) (file : FileHashTask) : Counter :=
  if file.error = 0 then
    (if file.matchState = c.MatchState_None then Counter.cUnknown
     else if file.matchState = c.MatchState_Mismatch then Counter.cMismatch
     else Counter.cMatch)
  else Counter.cError

/-- The rows `OnFileFinished` is to add for a task, as the specification
words it: for an error-free task one row per algorithm index below `k_count`
whose result slot is non-empty, in increasing index order, with the hex of the
result in the casing of `display_uppercase` and the tag (task, index); for a
task with an error code exactly one row, tagged with index 0. -/
def specRows (c : Consts) (upper : Bool) (file : FileHashTask) : List ListRow :=
  if file.error = 0 then
    ((List.range c.k_count).filter fun i => decide (file.hashResult i ≠ [])).map fun i =>
      { filename := utl.cstr file.displayName
        algorithm := AlgorithmText.hasherName i
        hash := HashText.digest (utl.hexString (file.hashResult i) upper)
        lparam := some (file, i) }
  else
    [{ filename := utl.cstr file.displayName
       algorithm := AlgorithmText.errorLabel
       hash := HashText.errorMessage file.error
       lparam := some (file, 0) }]

end MainDialog

/-! ## Settings dialog -/

/-- The object behind `_settings`: the members of `Settings` that
`MainDialog.cpp` reads, and the other check-box members that
`SettingsDialog.cpp` names in `s_boxes`. -/
structure AllSettings extends Settings where
  look_for_sumfiles : Bool
  sumfile_uppercase : Bool
  sumfile_unix_endings : Bool
  sumfile_use_double_space : Bool
  sumfile_forward_slashes : Bool
  sumfile_dot_hash_compatible : Bool
  sumfile_banner : Bool
  sumfile_banner_date : Bool

/-- The entries of the table `s_boxes`, in its order. -/
inductive SettingBox where
  | DISPLAY_UPPERCASE
  | LOOK_FOR_SUMFILES
  | SUMFILE_UPPERCASE
  | SUMFILE_UNIX_ENDINGS
  | SUMFILE_USE_DOUBLE_SPACE
  | SUMFILE_FORWARD_SLASHES
  | SUMFILE_DOT_HASH_COMPATIBLE
  | SUMFILE_BANNER
  | SUMFILE_BANNER_DATE
  deriving DecidableEq, Repr

/-- The table `s_boxes`. -/
def s_boxes : List SettingBox :=
  [SettingBox.DISPLAY_UPPERCASE, SettingBox.LOOK_FOR_SUMFILES, SettingBox.SUMFILE_UPPERCASE,
    SettingBox.SUMFILE_UNIX_ENDINGS, SettingBox.SUMFILE_USE_DOUBLE_SPACE,
    SettingBox.SUMFILE_FORWARD_SLASHES, SettingBox.SUMFILE_DOT_HASH_COMPATIBLE,
    SettingBox.SUMFILE_BANNER, SettingBox.SUMFILE_BANNER_DATE]

/-- Value of the member `ctl.setting` of an entry of `s_boxes`. -/
def SettingBox.get : SettingBox → AllSettings → Bool
  | SettingBox.DISPLAY_UPPERCASE, s => s.display_uppercase
  | SettingBox.LOOK_FOR_SUMFILES, s => s.look_for_sumfiles
  | SettingBox.SUMFILE_UPPERCASE, s => s.sumfile_uppercase
  | SettingBox.SUMFILE_UNIX_ENDINGS, s => s.sumfile_unix_endings
  | SettingBox.SUMFILE_USE_DOUBLE_SPACE, s => s.sumfile_use_double_space
  | SettingBox.SUMFILE_FORWARD_SLASHES, s => s.sumfile_forward_slashes
  | SettingBox.SUMFILE_DOT_HASH_COMPATIBLE, s => s.sumfile_dot_hash_compatible
  | SettingBox.SUMFILE_BANNER, s => s.sumfile_banner
  | SettingBox.SUMFILE_BANNER_DATE, s => s.sumfile_banner_date

/-- Call `(_settings->*ctl.setting).Set(value)` for an entry of `s_boxes`. -/
def SettingBox.set : SettingBox → AllSettings → Bool → AllSettings
  | SettingBox.DISPLAY_UPPERCASE, s, value => { s with display_uppercase := value }
  | SettingBox.LOOK_FOR_SUMFILES, s, value => { s with look_for_sumfiles := value }
  | SettingBox.SUMFILE_UPPERCASE, s, value => { s with sumfile_uppercase := value }
  | SettingBox.SUMFILE_UNIX_ENDINGS, s, value => { s with sumfile_unix_endings := value }
  | SettingBox.SUMFILE_USE_DOUBLE_SPACE, s, value => { s with sumfile_use_double_space := value }
  | SettingBox.SUMFILE_FORWARD_SLASHES, s, value => { s with sumfile_forward_slashes := value }
  | SettingBox.SUMFILE_DOT_HASH_COMPATIBLE, s, value =>
    { s with sumfile_dot_hash_compatible := value }
  | SettingBox.SUMFILE_BANNER, s, value => { s with sumfile_banner := value }
  | SettingBox.SUMFILE_BANNER_DATE, s, value => { s with sumfile_banner_date := value }

/-- The control identifiers that `SettingsDialog::DlgProc` compares with. -/
inductive ControlId where
  | IDOK
  | IDCANCEL
  | BUTTON_CHECK_FOR_UPDATES
  /-- Identifier `ctl.control_id` of an entry of `s_boxes` -/
  | CHECK (box : SettingBox)
  | ALGORITHM_LIST
  /-- Any other identifier -/
  | other (id : Nat)
  deriving DecidableEq, Repr

/-- A row of the algorithm list: `Idx()` of the `HashAlgorithm` that its
`lParam` points to, and what `ListView_GetCheckState` gives for it. -/
structure AlgorithmRow where
  algorithmIdx : Nat
  checked : Bool
  deriving DecidableEq, Repr

/-- A message box of the update check. -/
inductive UpdateBox where
  /-- Text `L"Unavailable in development builds"` -/
  | unavailable
  /-- Text `L"New version %hu.%hu.%hu available"` -/
  | updateAvailable (v : utl.Version)
  /-- Text `L"You are already on the latest version"` -/
  | alreadyLatest
  /-- Text of the caught `std::runtime_error` -/
  | runtimeError
  deriving DecidableEq, Repr

/-- State of the settings dialog: the members of `SettingsDialog`, the
settings it points to, and the state of its controls. -/
structure SettingsDialog where
  _done_setup : Bool
  /-- The object `*_settings` -/
  _settings : AllSettings
  /-- Rows of `_hwnd_ALGORITHM_LIST` -/
  ALGORITHM_LIST : List AlgorithmRow
  /-- Check state of the check box of each entry of `s_boxes` -/
  checks : SettingBox → Bool
  /-- Argument of `EndDialog`, once it has been called -/
  ended : Option ControlId

namespace SettingsDialog

/-- The messages that `SettingsDialog::DlgProc` distinguishes. For
`WM_COMMAND`, `id` is `LOWORD(wParam)` and `clicked` tells whether
`HIWORD(wParam)` is `BN_CLICKED`; for `WM_NOTIFY`, `idFrom` and `iItem` are the
members of the header and `itemChanged` tells whether `code` is
`LVN_ITEMCHANGED`. -/
inductive Message where
  | WM_INITDIALOG
  | WM_COMMAND (id : ControlId) (clicked : Bool)
  | WM_NOTIFY (idFrom : ControlId) (itemChanged : Bool) (iItem : Nat)
  | other

/-- What one call of `SettingsDialog::DlgProc` gives: the dialog afterwards,
the value returned (`TRUE` or `FALSE`) and the message box shown, if any. -/
structure Outcome where
  dialog : SettingsDialog
  result : Bool
  box : Option UpdateBox

/-- The update check behind `IDC_BUTTON_CHECK_FOR_UPDATES`, with `current`
the version of the build and `latest` what `utl::GetLatestVersion` returns,
`none` when it throws. -/
def checkForUpdates (current : utl.Version) (latest : Option utl.Version) : UpdateBox :=
  if current.AsNumber = 0 then
    UpdateBox.unavailable
  else
    match latest with
    | none => UpdateBox.runtimeError
    | some v => if v.gt current then UpdateBox.updateAvailable v else UpdateBox.alreadyLatest

/-- Embedding of `SettingsDialog::DlgProc`. The list of hashers has
`c.k_count` entries, the entry at position `i` having `Idx()` equal to
`Idx i`. The result is `none` where the code dereferences a null pointer: a
notification for an item that has no row, whose `lParam` stays `0`. -/
def DlgProc (c : Consts) (Idx : Nat → Nat) (current : utl.Version)
    (latest : Option utl.Version) (d : SettingsDialog) : Message → Option Outcome
  | Message.WM_INITDIALOG =>
    let rows := (List.range c.k_count).map fun i =>
      (⟨Idx i, d._settings.algorithms (Idx i)⟩ : AlgorithmRow)
    some
      { dialog :=
          { d with
            ALGORITHM_LIST := d.ALGORITHM_LIST ++ rows
            checks := fun box => if box ∈ s_boxes then box.get d._settings else d.checks box
            _done_setup := true }
        result := false
        box := none }
  | Message.WM_COMMAND id clicked =>
    if clicked ∧ (id = ControlId.IDOK ∨ id = ControlId.IDCANCEL) then
      some { dialog := { d with ended := some id }, result := true, box := none }
    else if clicked ∧ id = ControlId.BUTTON_CHECK_FOR_UPDATES then
      some { dialog := d, result := false, box := some (checkForUpdates current latest) }
    else if clicked then
      some
        { dialog :=
            { d with
              _settings := s_boxes.foldl
                (fun settings ctl =>
                  if id = ControlId.CHECK ctl then ctl.set settings (d.checks ctl) else settings)
                d._settings }
          result := false
          box := none }
    else
      some { dialog := d, result := false, box := none }
  | Message.WM_NOTIFY idFrom itemChanged iItem =>
    if idFrom = ControlId.ALGORITHM_LIST ∧ itemChanged ∧ d._done_setup then
      match d.ALGORITHM_LIST[iItem]? with
      | none => none
      | some row =>
        some
          { dialog :=
              { d with
                _settings :=
                  { d._settings with
                    algorithms := Function.update d._settings.algorithms row.algorithmIdx
                      row.checked } }
            result := true
            box := none }
    else
      some { dialog := d, result := false, box := none }
  | Message.other => some { dialog := d, result := false, box := none }

end SettingsDialog

/-! ## Theorems: hex helpers -/

namespace utl

theorem conv_small (k : CharKind) (x : Int) (h0 : 0 ≤ x) (h1 : x < 128) : k.conv x = x := by
  cases k <;> simp only [CharKind.conv] <;> omega

theorem hex_lt_ten (k : CharKind) (n : Nat) (upper : Bool) (h : n < 10) :
    hex k n upper = 0x30 + (n : Int) := by
  unfold hex
  rw [if_pos (by omega)]
  exact conv_small k _ (by omega) (by omega)

theorem hex_ge_ten (k : CharKind) (n : Nat) (upper : Bool) (h : 10 ≤ n) (h16 : n < 16) :
    hex k n upper = (if upper then 0x41 else 0x61) + ((n : Int) - 10) := by
  unfold hex
  rw [if_neg (by omega)]
  cases upper
  · exact conv_small k _ (by simp; omega) (by simp; omega)
  · exact conv_small k _ (by simp; omega) (by simp; omega)

theorem unhex_ne_iff (c : Int) : unhex c ≠ 0xFF ↔ IsHexDigit c := by
  unfold unhex IsHexDigit
  by_cases h : c ≥ 0x80 ∨ c ≤ 0
  · rw [if_pos h]; constructor
    · intro h'; exact absurd rfl h'
    · intro h'; omega
  · rw [if_neg h]
    simp only
    split_ifs <;> omega

theorem unhex_eq_iff (c : Int) : unhex c = 0xFF ↔ ¬ IsHexDigit c := by
  rw [← unhex_ne_iff]; exact not_not.symm

theorem unhex_lt_16 (c : Int) (h : IsHexDigit c) : unhex c < 16 := by
  unfold unhex
  unfold IsHexDigit at h
  rw [if_neg (by omega)]
  simp only
  split_ifs <;> omega

theorem IsHexDigit.ne_zero {c : Int} (h : IsHexDigit c) : c ≠ 0 := by
  unfold IsHexDigit at h; omega

theorem unhex_hex (k : CharKind) (n : Nat) (upper : Bool) (h : n < 16) :
    unhex (hex k n upper) = n := by
  by_cases h10 : n < 10
  · rw [hex_lt_ten k n upper h10]
    unfold unhex
    rw [if_neg (by omega)]
    simp only
    split_ifs <;> omega
  · rw [hex_ge_ten k n upper (by omega) h]
    unfold unhex
    cases upper
    · simp only [Bool.false_eq_true, if_false]
      rw [if_neg (by omega)]
      split_ifs <;> omega
    · simp only [if_true]
      rw [if_neg (by omega)]
      split_ifs <;> omega

theorem hex_isHexDigit (k : CharKind) (n : Nat) (upper : Bool) (h : n < 16) :
    IsHexDigit (hex k n upper) := by
  rw [← unhex_ne_iff, unhex_hex k n upper h]; omega

set_option maxRecDepth 100000 in
theorem nibbles_join : ∀ b : Nat, b < 256 →
    ((((b >>> 4) % 256) <<< 4) % 256 ||| (b &&& 0xF) % 256) % 256 = b := by
  decide

set_option maxRecDepth 100000 in
theorem nibble_bounds : ∀ b : Nat, b < 256 →
    (b >>> 4) % 256 < 16 ∧ (b &&& 0xF) % 256 < 16 := by
  decide

end utl

namespace utl

theorem hexFold_acc (k : CharKind) (upper : Bool) (l : List Nat) (acc : List Int) :
    l.foldl
      (fun str b => str ++ [hex k ((b >>> 4) % 256) upper, hex k ((b &&& 0xF) % 256) upper])
      acc
    = acc ++ l.foldl
      (fun str b => str ++ [hex k ((b >>> 4) % 256) upper, hex k ((b &&& 0xF) % 256) upper])
      [] := by
  induction l generalizing acc with
  | nil => simp
  | cons b l ih =>
    simp only [List.foldl_cons]
    rw [ih (acc ++ _), ih ([] ++ _)]
    simp

theorem HashBytesToString_nil (k : CharKind) (upper : Bool) :
    HashBytesToString k [] upper = [0] := by
  cases k <;> rfl

theorem HashBytesToString_cons (k : CharKind) (b : Nat) (l : List Nat) (upper : Bool) :
    HashBytesToString k (b :: l) upper
      = hex k ((b >>> 4) % 256) upper :: hex k ((b &&& 0xF) % 256) upper
          :: HashBytesToString k l upper := by
  unfold HashBytesToString
  simp only [List.foldl_cons]
  rw [hexFold_acc]
  simp

theorem decodeFrom_pair (c1 c2 : Int) (rest : List Int) (i byte : Nat) (res : List Nat)
    (h1 : IsHexDigit c1) (h2 : IsHexDigit c2) (hi : i % 2 = 0) :
    decodeFrom (c1 :: c2 :: rest) i byte res
      = decodeFrom rest (i + 2) ((unhex c1 <<< 4) % 256)
          (res ++ [((unhex c1 <<< 4) % 256 ||| unhex c2) % 256]) := by
  have n1 : unhex c1 ≠ 0xFF := (unhex_ne_iff c1).2 h1
  have n2 : unhex c2 ≠ 0xFF := (unhex_ne_iff c2).2 h2
  have hi1 : ¬ ((i + 1) % 2 = 0) := by omega
  rw [decodeFrom, if_neg h1.ne_zero]
  simp only
  rw [if_neg n1, if_pos hi, decodeFrom, if_neg h2.ne_zero]
  simp only
  rw [if_neg n2, if_neg hi1]

theorem decodeFrom_stop_even (c : Int) (rest : List Int) (i byte : Nat) (res : List Nat)
    (hc : ¬ IsHexDigit c) (hi : i % 2 = 0) :
    decodeFrom (c :: rest) i byte res = res := by
  rw [decodeFrom]
  by_cases h0 : c = 0
  · rw [if_pos h0]
  · rw [if_neg h0]
    simp only
    rw [if_pos ((unhex_eq_iff c).2 hc), if_pos hi]

theorem decodeFrom_HashBytesToString (k : CharKind) (upper : Bool) (b : List Nat)
    (hb : IsBytes b) (i byte : Nat) (res : List Nat) (hi : i % 2 = 0) :
    decodeFrom (HashBytesToString k b upper) i byte res = res ++ b := by
  induction b generalizing i byte res with
  | nil =>
    rw [HashBytesToString_nil]
    simp [decodeFrom]
  | cons x l ih =>
    have hx : x < 256 := hb x (List.mem_cons_self x l)
    have hl : IsBytes l := fun y hy => hb y (List.mem_cons_of_mem x hy)
    obtain ⟨hhi, hlo⟩ := nibble_bounds x hx
    rw [HashBytesToString_cons,
      decodeFrom_pair _ _ _ _ _ _ (hex_isHexDigit k _ upper hhi) (hex_isHexDigit k _ upper hlo) hi,
      unhex_hex k _ upper hhi, unhex_hex k _ upper hlo, nibbles_join x hx,
      ih hl _ _ _ (by omega)]
    simp

theorem skipNonHex_of_head (c : Int) (rest : List Int) (h : c = 0 ∨ IsHexDigit c) :
    skipNonHex (c :: rest) = c :: rest := by
  rw [skipNonHex, if_pos]
  rcases h with h | h
  · exact Or.inl h
  · exact Or.inr ((unhex_ne_iff c).2 h)

theorem skipNonHex_HashBytesToString (k : CharKind) (upper : Bool) (b : List Nat)
    (hb : IsBytes b) :
    skipNonHex (HashBytesToString k b upper) = HashBytesToString k b upper := by
  cases b with
  | nil =>
    rw [HashBytesToString_nil]
    exact skipNonHex_of_head 0 [] (Or.inl rfl)
  | cons x l =>
    have hx : x < 256 := hb x (List.mem_cons_self x l)
    rw [HashBytesToString_cons]
    exact skipNonHex_of_head _ _ (Or.inr (hex_isHexDigit k _ upper (nibble_bounds x hx).1))

/-- C3. Hex round trip: decoding the NUL-terminated string that
`HashBytesToString` writes for a byte vector `b`, in either casing and for
either character type, gives back exactly `b` (the empty vector included). -/
theorem hex_round_trip (k : CharKind) (b : List Nat) (upper : Bool) (hb : IsBytes b) :
    HashStringToBytes (HashBytesToString k b upper) = b := by
  unfold HashStringToBytes
  rw [skipNonHex_HashBytesToString k upper b hb,
    decodeFrom_HashBytesToString k upper b hb 0 0 [] rfl]
  rfl

theorem hex_round_trip_witness :
    IsBytes [0xDE, 0xAD, 0x00, 0xFF] ∧
      HashStringToBytes (HashBytesToString CharKind.wide [0xDE, 0xAD, 0x00, 0xFF] false)
        = [0xDE, 0xAD, 0x00, 0xFF] :=
  ⟨by decide, hex_round_trip CharKind.wide [0xDE, 0xAD, 0x00, 0xFF] false (by decide)⟩

end utl

namespace utl

/-- C4. An odd-length digest part that runs to the end of the string is not
rejected: `"abc"` has a digest part of three hex digits and decodes to the one
byte `AB`, while the same run followed by a non-hex character (`"abc "`)
decodes to the empty vector. -/
theorem odd_digest_at_end_not_rejected :
    (digestPart (lit "abc")).length % 2 = 1 ∧
      HashStringToBytes (lit "abc") = [0xAB] ∧
      (digestPart (lit "abc ")).length % 2 = 1 ∧
      HashStringToBytes (lit "abc ") = [] := by
  decide

theorem decodeFrom_hex_run (n : Nat) : ∀ (h : List Int), h.length = 2 * n →
    (∀ x ∈ h, IsHexDigit x) → ∀ (i byte : Nat) (res : List Nat), i % 2 = 0 →
    ∃ byte' res', ∀ t, decodeFrom (h ++ t) i byte res = decodeFrom t (i + 2 * n) byte' res' := by
  induction n with
  | zero =>
    intro h hlen _ i byte res _
    have : h = [] := List.length_eq_zero.1 (by omega)
    subst this
    exact ⟨byte, res, fun t => rfl⟩
  | succ n ih =>
    intro h hlen hh i byte res hi
    match h, hlen, hh with
    | c1 :: c2 :: h', hlen, hh =>
      have h1 : IsHexDigit c1 := hh c1 (by simp)
      have h2 : IsHexDigit c2 := hh c2 (by simp)
      have hlen' : h'.length = 2 * n := by simp at hlen; omega
      have hh' : ∀ x ∈ h', IsHexDigit x := fun x hx => hh x (by simp [hx])
      obtain ⟨byte', res', hrec⟩ := ih h' hlen' hh' (i + 2) ((unhex c1 <<< 4) % 256)
        (res ++ [((unhex c1 <<< 4) % 256 ||| unhex c2) % 256]) (by omega)
      refine ⟨byte', res', fun t => ?_⟩
      rw [List.cons_append, List.cons_append, decodeFrom_pair _ _ _ _ _ _ h1 h2 hi, hrec t]
      congr 1
      omega
    | [_], hlen, _ => simp at hlen; omega
    | [], hlen, _ => simp at hlen

/-- C5 as stated fails for the empty digest: with `h` empty the separator is
only a leading non-hex character, and the hex run after it is decoded. -/
theorem decode_stops_counterexample :
    ¬ ∀ (h s : List Int) (c : Int), (∀ x ∈ h, IsHexDigit x) → h.length % 2 = 0 →
        ¬ IsHexDigit c → c ≠ 0 →
        HashStringToBytes (h ++ [c] ++ s) = HashStringToBytes h := by
  intro H
  have h1 := H [] (lit "ab") 0x20 (by decide) (by decide) (by decide) (by decide)
  revert h1
  decide

/-- C5 (amended). For every non-empty even-length string `h` of hex digits,
every non-hex non-NUL character `c` and every suffix `s`, decoding
`h ++ [c] ++ s` gives the same bytes as decoding `h`: nothing after the first
non-hex character that follows the digest influences the result. -/
theorem decode_stops_after_digest (h s : List Int) (c : Int) (hne : h ≠ [])
    (hh : ∀ x ∈ h, IsHexDigit x) (hlen : h.length % 2 = 0)
    (hc : ¬ IsHexDigit c) (_hc0 : c ≠ 0) :
    HashStringToBytes (h ++ [c] ++ s) = HashStringToBytes h := by
  obtain ⟨x, h', rfl⟩ := List.exists_cons_of_ne_nil hne
  have hx : IsHexDigit x := hh x (by simp)
  obtain ⟨byte', res', hrec⟩ :=
    decodeFrom_hex_run ((x :: h').length / 2) (x :: h') (by omega) hh 0 0 [] rfl
  unfold HashStringToBytes
  rw [List.append_assoc, List.cons_append, skipNonHex_of_head x _ (Or.inr hx),
    skipNonHex_of_head x _ (Or.inr hx), ← List.cons_append, hrec ([c] ++ s)]
  have h2 := hrec []
  rw [List.append_nil] at h2
  rw [h2]
  rw [List.singleton_append, decodeFrom_stop_even c s _ _ _ hc (by omega)]
  rfl

theorem decode_stops_after_digest_witness :
    lit "deadbeef" ≠ [] ∧ (∀ x ∈ lit "deadbeef", IsHexDigit x) ∧
      (lit "deadbeef").length % 2 = 0 ∧ ¬ IsHexDigit 0x20 ∧ (0x20 : Int) ≠ 0 ∧
      HashStringToBytes (lit "deadbeef" ++ [0x20] ++ lit " missing.bin")
        = HashStringToBytes (lit "deadbeef") ∧
      HashStringToBytes (lit "deadbeef  missing.bin") = [0xDE, 0xAD, 0xBE, 0xEF] :=
  ⟨by decide, by decide, by decide, by decide, by decide,
    decode_stops_after_digest (lit "deadbeef") (lit " missing.bin") 0x20
      (by decide) (by decide) (by decide) (by decide) (by decide),
    by decide⟩

theorem decodeFrom_odd_hex_run (h : List Int) (hne : h ≠ []) (hh : ∀ x ∈ h, IsHexDigit x)
    (hlen : h.length % 2 = 1) (i byte : Nat) (res : List Nat) (hi : i % 2 = 0) :
    ∃ byte' res', ∀ t, decodeFrom (h ++ t) i byte res
      = decodeFrom (h.getLast hne :: t) (i + (h.length - 1)) byte' res' := by
  have hsplit : h = h.dropLast ++ [h.getLast hne] := (List.dropLast_append_getLast hne).symm
  have hlen' : h.dropLast.length = 2 * ((h.length - 1) / 2) := by
    rw [List.length_dropLast]; omega
  obtain ⟨byte', res', hrec⟩ := decodeFrom_hex_run ((h.length - 1) / 2) h.dropLast hlen'
    (fun x hx => hh x (List.mem_of_mem_dropLast hx)) i byte res hi
  refine ⟨byte', res', fun t => ?_⟩
  have e : h ++ t = h.dropLast ++ (h.getLast hne :: t) := by
    conv_lhs => rw [hsplit]
    simp
  rw [e, hrec]
  congr 1
  omega

/-- The path that does reject: an odd-length run of hex digits followed by a
non-hex, non-NUL character decodes to the empty vector. -/
theorem odd_digest_before_non_hex_rejected (h s : List Int) (c : Int) (hne : h ≠ [])
    (hh : ∀ x ∈ h, IsHexDigit x) (hlen : h.length % 2 = 1)
    (hc : ¬ IsHexDigit c) (hc0 : c ≠ 0) :
    HashStringToBytes (h ++ c :: s) = [] := by
  obtain ⟨byte', res', hrec⟩ := decodeFrom_odd_hex_run h hne hh hlen 0 0 [] rfl
  have hlast : IsHexDigit (h.getLast hne) := hh _ (List.getLast_mem hne)
  obtain ⟨x, h', rfl⟩ := List.exists_cons_of_ne_nil hne
  have hx : IsHexDigit x := hh x (by simp)
  unfold HashStringToBytes
  rw [List.cons_append, skipNonHex_of_head x _ (Or.inr hx), ← List.cons_append, hrec (c :: s),
    decodeFrom, if_neg hlast.ne_zero]
  simp only
  rw [if_neg ((unhex_ne_iff _).2 hlast), if_pos (by simp only [List.length_cons] at hlen ⊢; omega),
    decodeFrom, if_neg hc0]
  simp only
  rw [if_pos ((unhex_eq_iff c).2 hc), if_neg (by simp only [List.length_cons] at hlen ⊢; omega)]

/-- The path that does not reject: an odd-length run of hex digits that ends
the string decodes like the run without its last digit. -/
theorem odd_digest_at_end_drops_nibble (h : List Int) (hne : h ≠ [])
    (hh : ∀ x ∈ h, IsHexDigit x) (hlen : h.length % 2 = 1) :
    HashStringToBytes h = HashStringToBytes h.dropLast := by
  have hlast : IsHexDigit (h.getLast hne) := hh _ (List.getLast_mem hne)
  have hlen' : h.dropLast.length = 2 * ((h.length - 1) / 2) := by
    rw [List.length_dropLast]; omega
  obtain ⟨byte2, res2, hrec2⟩ := decodeFrom_hex_run ((h.length - 1) / 2) h.dropLast hlen'
    (fun x hx => hh x (List.mem_of_mem_dropLast hx)) 0 0 [] rfl
  have hsplit : h = h.dropLast ++ [h.getLast hne] := (List.dropLast_append_getLast hne).symm
  have hskip : ∀ l : List Int, l ≠ [] → (∀ x ∈ l, IsHexDigit x) → skipNonHex l = l := by
    intro l hl hall
    obtain ⟨x, l', rfl⟩ := List.exists_cons_of_ne_nil hl
    exact skipNonHex_of_head x l' (Or.inr (hall x (by simp)))
  have hskip' : skipNonHex h.dropLast = h.dropLast := by
    by_cases hd : h.dropLast = []
    · rw [hd]; rfl
    · exact hskip _ hd fun x hx => hh x (List.mem_of_mem_dropLast hx)
  unfold HashStringToBytes
  rw [hskip h hne hh, hskip']
  have e1 := hrec2 [h.getLast hne]
  rw [← hsplit] at e1
  have e2 := hrec2 []
  rw [List.append_nil] at e2
  have e3 : decodeFrom [h.getLast hne] (0 + 2 * ((h.length - 1) / 2)) byte2 res2 = res2 := by
    rw [decodeFrom, if_neg hlast.ne_zero]
    simp only
    rw [if_neg ((unhex_ne_iff _).2 hlast), if_pos (by omega), decodeFrom]
  have e4 : decodeFrom [] (0 + 2 * ((h.length - 1) / 2)) byte2 res2 = res2 := by
    rw [decodeFrom]
  rw [e1, e2, e3, e4]

theorem skipNonHex_append_left (p s : List Int) (hp : ∀ c ∈ p, ¬ IsHexDigit c ∧ c ≠ 0) :
    skipNonHex (p ++ s) = skipNonHex s := by
  induction p with
  | nil => rfl
  | cons c p ih =>
    have hc := hp c (List.mem_cons_self c p)
    have hnot : ¬ (c = 0 ∨ unhex c ≠ 0xFF) := by
      rintro (h | h)
      · exact hc.2 h
      · exact hc.1 ((unhex_ne_iff c).1 h)
    rw [List.cons_append, skipNonHex, if_neg hnot]
    exact ih fun d hd => hp d (List.mem_cons_of_mem c hd)

/-- C6. Leading non-hex characters are stripped before decoding: for every
prefix `p` of non-hex, non-NUL characters and every string `s`, decoding
`p ++ s` gives the same bytes as decoding `s`. -/
theorem leading_non_hex_stripped (p s : List Int) (hp : ∀ c ∈ p, ¬ IsHexDigit c ∧ c ≠ 0) :
    HashStringToBytes (p ++ s) = HashStringToBytes s := by
  unfold HashStringToBytes
  rw [skipNonHex_append_left p s hp]

theorem leading_non_hex_stripped_witness :
    (∀ c ∈ lit "  SHx: ", ¬ IsHexDigit c ∧ c ≠ 0) ∧
      HashStringToBytes (lit "  SHx: " ++ lit "c0ffee11") = HashStringToBytes (lit "c0ffee11") :=
  ⟨by decide, leading_non_hex_stripped (lit "  SHx: ") (lit "c0ffee11") (by decide)⟩

end utl

namespace utl

theorem hex_eq_hexDigitChar (k : CharKind) (upper : Bool) :
    ∀ n : Nat, n < 16 → hex k n upper = hexDigitChar n upper := by
  cases k <;> cases upper <;> decide

set_option maxRecDepth 100000 in
theorem nibbles_arith : ∀ b : Nat, b < 256 →
    (b >>> 4) % 256 = b / 16 ∧ (b &&& 0xF) % 256 = b % 16 := by
  decide

theorem hexDigitChar_class (upper : Bool) : ∀ n : Nat, n < 16 →
    (0x30 ≤ hexDigitChar n upper ∧ hexDigitChar n upper ≤ 0x39) ∨
      (if upper then 0x41 ≤ hexDigitChar n upper ∧ hexDigitChar n upper ≤ 0x46
        else 0x61 ≤ hexDigitChar n upper ∧ hexDigitChar n upper ≤ 0x66) := by
  cases upper <;> decide

theorem HashBytesToString_length (k : CharKind) (upper : Bool) (b : List Nat) :
    (HashBytesToString k b upper).length = 2 * b.length + 1 := by
  induction b with
  | nil => rw [HashBytesToString_nil]; rfl
  | cons x l ih =>
    rw [HashBytesToString_cons]
    simp only [List.length_cons, ih]
    omega

theorem HashBytesToString_terminator (k : CharKind) (upper : Bool) (b : List Nat) :
    (HashBytesToString k b upper)[2 * b.length]? = some 0 := by
  induction b with
  | nil => rw [HashBytesToString_nil]; rfl
  | cons x l ih =>
    rw [HashBytesToString_cons]
    have : 2 * (x :: l).length = 2 * l.length + 1 + 1 := by simp only [List.length_cons]; omega
    rw [this, List.getElem?_cons_succ, List.getElem?_cons_succ]
    exact ih

theorem HashBytesToString_getElem (k : CharKind) (upper : Bool) (b : List Nat) :
    ∀ (i : Nat) (hi : i < b.length),
      (HashBytesToString k b upper)[2 * i]? = some (hex k ((b[i] >>> 4) % 256) upper) ∧
      (HashBytesToString k b upper)[2 * i + 1]? = some (hex k ((b[i] &&& 0xF) % 256) upper) := by
  induction b with
  | nil => intro i hi; simp at hi
  | cons x l ih =>
    intro i hi
    rw [HashBytesToString_cons]
    cases i with
    | zero => constructor <;> simp
    | succ j =>
      have hj : j < l.length := by simpa using hi
      have e : 2 * (j + 1) = 2 * j + 1 + 1 := by omega
      have e' : 2 * (j + 1) + 1 = 2 * j + 1 + 1 + 1 := by omega
      rw [e', e, List.getElem?_cons_succ, List.getElem?_cons_succ, List.getElem?_cons_succ,
        List.getElem?_cons_succ]
      simpa using ih j hj

/-- C7. For a byte vector `b` of length `n` and either casing flag,
`HashBytesToString` writes exactly `2n` characters and then a terminating NUL;
character `2i` is the hex digit of the high nibble of `b[i]` and character
`2i+1` the hex digit of its low nibble; every written digit is in `0`-`9`, or
in `A`-`F` when `upper` is set and in `a`-`f` when it is not. -/
theorem HashBytesToString_layout (k : CharKind) (b : List Nat) (upper : Bool)
    (hb : IsBytes b) :
    (HashBytesToString k b upper).length = 2 * b.length + 1 ∧
    (HashBytesToString k b upper)[2 * b.length]? = some 0 ∧
    (∀ (i : Nat) (hi : i < b.length),
      (HashBytesToString k b upper)[2 * i]? = some (hexDigitChar (b[i] / 16) upper) ∧
      (HashBytesToString k b upper)[2 * i + 1]? = some (hexDigitChar (b[i] % 16) upper)) ∧
    (∀ (j : Nat) (c : Int), j < 2 * b.length → (HashBytesToString k b upper)[j]? = some c →
      (0x30 ≤ c ∧ c ≤ 0x39) ∨
        (if upper then 0x41 ≤ c ∧ c ≤ 0x46 else 0x61 ≤ c ∧ c ≤ 0x66)) := by
  have digits : ∀ (i : Nat) (hi : i < b.length),
      (HashBytesToString k b upper)[2 * i]? = some (hexDigitChar (b[i] / 16) upper) ∧
      (HashBytesToString k b upper)[2 * i + 1]? = some (hexDigitChar (b[i] % 16) upper) := by
    intro i hi
    have hx : b[i] < 256 := hb _ (List.getElem_mem hi)
    obtain ⟨e1, e2⟩ := HashBytesToString_getElem k upper b i hi
    obtain ⟨a1, a2⟩ := nibbles_arith b[i] hx
    rw [a1, hex_eq_hexDigitChar k upper _ (by omega)] at e1
    rw [a2, hex_eq_hexDigitChar k upper _ (by omega)] at e2
    exact ⟨e1, e2⟩
  refine ⟨HashBytesToString_length k upper b, HashBytesToString_terminator k upper b, digits, ?_⟩
  intro j c hj hc
  have hi : j / 2 < b.length := by omega
  have hx : b[j / 2] < 256 := hb _ (List.getElem_mem hi)
  obtain ⟨d1, d2⟩ := digits (j / 2) hi
  rcases Nat.mod_two_eq_zero_or_one j with hpar | hpar
  · have ej : 2 * (j / 2) = j := by omega
    rw [ej, hc] at d1
    rw [Option.some.inj d1]
    exact hexDigitChar_class upper _ (by omega)
  · have ej : 2 * (j / 2) + 1 = j := by omega
    rw [ej, hc] at d2
    rw [Option.some.inj d2]
    exact hexDigitChar_class upper _ (by omega)

theorem HashBytesToString_layout_witness :
    IsBytes [0x0F, 0xA0, 0x9C] ∧
      (HashBytesToString CharKind.narrow [0x0F, 0xA0, 0x9C] true).length = 2 * 3 + 1 ∧
      HashBytesToString CharKind.narrow [0x0F, 0xA0, 0x9C] true = lit "0FA09C" ++ [0] ∧
      HashBytesToString CharKind.narrow [0x0F, 0xA0, 0x9C] false = lit "0fa09c" ++ [0] :=
  ⟨by decide, (HashBytesToString_layout CharKind.narrow [0x0F, 0xA0, 0x9C] true (by decide)).1,
    by decide, by decide⟩

theorem unhex_swapCase (c : Int) : unhex (swapCase c) = unhex c := by
  unfold unhex swapCase
  dsimp only
  split_ifs <;> omega

theorem swapCase_eq_zero (c : Int) : swapCase c = 0 ↔ c = 0 := by
  unfold swapCase
  split_ifs <;> omega

theorem skipNonHex_map_swapCase (s : List Int) :
    skipNonHex (s.map swapCase) = (skipNonHex s).map swapCase := by
  induction s with
  | nil => rfl
  | cons c rest ih =>
    simp only [List.map_cons, skipNonHex, unhex_swapCase, swapCase_eq_zero]
    split_ifs
    · rfl
    · exact ih

theorem decodeFrom_map_swapCase (l : List Int) (i byte : Nat) (res : List Nat) :
    decodeFrom (l.map swapCase) i byte res = decodeFrom l i byte res := by
  induction l generalizing i byte res with
  | nil => rfl
  | cons c rest ih =>
    simp only [List.map_cons, decodeFrom, unhex_swapCase, swapCase_eq_zero, ih]

/-- C8. Case normalisation happens in the parse: a string and the same string
with every ASCII letter changed to the other case decode to the same byte
vector. -/
theorem parse_ignores_case (s : List Int) :
    HashStringToBytes (s.map swapCase) = HashStringToBytes s := by
  unfold HashStringToBytes
  rw [skipNonHex_map_swapCase, decodeFrom_map_swapCase]

end utl

/-! ## Theorems: main dialog -/

namespace MainDialog

theorem count_UpdateDefaultStatus (d : MainDialog) (force_reset : Bool) (k : Counter) :
    count (d.UpdateDefaultStatus force_reset) k = count d k := by
  unfold UpdateDefaultStatus
  cases force_reset <;> cases k <;> simp only [count] <;> split_ifs <;> rfl

theorem count_addResultRow (file : FileHashTask) (d : MainDialog) (i : Nat) (k : Counter) :
    count (addResultRow file d i) k = count d k := by
  unfold addResultRow
  simp only
  split_ifs <;> cases k <;> rfl

theorem count_foldl_addResultRow (file : FileHashTask) (l : List Nat) (d : MainDialog)
    (k : Counter) : count (l.foldl (addResultRow file) d) k = count d k := by
  induction l generalizing d with
  | nil => rfl
  | cons i l ih => rw [List.foldl_cons, ih, count_addResultRow]

/-- The counter `OnFileFinished` increments, in the order the code tests. -/
theorem count_OnFileFinished (c : Consts) (d : MainDialog) (file : FileHashTask) (k : Counter) :
    count (OnFileFinished c d file) k
      = count d k +
        (if k = (if file.error = 0 then
                  (if file.matchState = c.MatchState_None then Counter.cUnknown
                   else if file.matchState = c.MatchState_Mismatch then Counter.cMismatch
                   else Counter.cMatch)
                 else Counter.cError)
         then 1 else 0) := by
  unfold OnFileFinished
  by_cases he : file.error = 0
  · simp only [he, if_true]
    rw [count_UpdateDefaultStatus, count_foldl_addResultRow]
    by_cases h1 : file.matchState = c.MatchState_None
    · simp only [h1, if_true]
      cases k <;> simp [count]
    · by_cases h2 : file.matchState = c.MatchState_Mismatch
      · simp only [if_neg h1, if_pos h2]
        cases k <;> simp [count]
      · simp only [if_neg h1, if_neg h2]
        cases k <;> simp [count]
  · simp only [if_neg he]
    rw [count_UpdateDefaultStatus]
    cases k <;> simp [count, AddItemToFileList]

/-- C1 as stated fails: a task with error code 5 whose match state is
Mismatch increments the error counter, not the mismatch counter. -/
theorem dominant_rule_counterexample :
    ¬ ∀ (c : Consts) (d : MainDialog) (file : FileHashTask),
        c.MatchState_None ≠ c.MatchState_Mismatch →
        ∀ k, count (OnFileFinished c d file) k
          = count d k + (if k = specDominant c file then 1 else 0) := by
  intro H
  have h := H ⟨-1, -2, 1⟩ (start []) ⟨5, -2, fun _ => [], []⟩ (by decide) Counter.cError
  rw [count_OnFileFinished] at h
  revert h
  decide

/-- C1 (amended). For every completion event, the counter that
`OnFileFinished` increments is chosen in this priority order: a non-zero error
code gives the error counter, whatever the match state; else match state
Mismatch gives the mismatch counter; else a matching algorithm (a state other
than None) gives the match counter; else the no-reference counter. -/
theorem OnFileFinished_dominant_rule (c : Consts) (d : MainDialog) (file : FileHashTask)
    (hne : c.MatchState_None ≠ c.MatchState_Mismatch) (k : Counter) :
    count (OnFileFinished c d file) k
      = count d k +
        (if k = (if file.error ≠ 0 then Counter.cError
                 else if file.matchState = c.MatchState_Mismatch then Counter.cMismatch
                 else if file.matchState ≠ c.MatchState_None then Counter.cMatch
                 else Counter.cUnknown)
         then 1 else 0) := by
  rw [count_OnFileFinished]
  by_cases he : file.error = 0
  · have he' : ¬ file.error ≠ 0 := fun h => h he
    rw [if_pos he, if_neg he']
    by_cases h1 : file.matchState = c.MatchState_None
    · have h2 : ¬ file.matchState = c.MatchState_Mismatch := fun h => hne (h1.symm.trans h)
      have h1' : ¬ file.matchState ≠ c.MatchState_None := fun h => h h1
      rw [if_pos h1, if_neg h2, if_neg h1']
    · by_cases h2 : file.matchState = c.MatchState_Mismatch
      · rw [if_neg h1, if_pos h2, if_pos h2]
      · rw [if_neg h1, if_neg h2, if_neg h2, if_pos h1]
  · rw [if_neg he, if_pos he]

theorem OnFileFinished_dominant_rule_witness :
    (-1 : Int) ≠ -2 ∧
      count (OnFileFinished ⟨-1, -2, 3⟩ (start []) ⟨5, -2, fun _ => [], []⟩) Counter.cError = 1 ∧
      count (OnFileFinished ⟨-1, -2, 3⟩ (start []) ⟨0, -2, fun _ => [], []⟩) Counter.cMismatch = 1 ∧
      count (OnFileFinished ⟨-1, -2, 3⟩ (start []) ⟨0, 1, fun _ => [], []⟩) Counter.cMatch = 1 ∧
      count (OnFileFinished ⟨-1, -2, 3⟩ (start []) ⟨0, -1, fun _ => [], []⟩) Counter.cUnknown = 1 :=
  ⟨by decide,
    OnFileFinished_dominant_rule ⟨-1, -2, 3⟩ (start []) ⟨5, -2, fun _ => [], []⟩ (by decide) _,
    OnFileFinished_dominant_rule ⟨-1, -2, 3⟩ (start []) ⟨0, -2, fun _ => [], []⟩ (by decide) _,
    OnFileFinished_dominant_rule ⟨-1, -2, 3⟩ (start []) ⟨0, 1, fun _ => [], []⟩ (by decide) _,
    OnFileFinished_dominant_rule ⟨-1, -2, 3⟩ (start []) ⟨0, -1, fun _ => [], []⟩ (by decide) _⟩

/-- C2. For every task, one call of `OnFileFinished` increases exactly one of
`_count_match`, `_count_mismatch`, `_count_unknown`, `_count_error` by exactly
1 and leaves the other three unchanged. -/
theorem OnFileFinished_exactly_one_counter (c : Consts) (d : MainDialog) (file : FileHashTask) :
    ((OnFileFinished c d file)._count_match = d._count_match + 1 ∧
      (OnFileFinished c d file)._count_mismatch = d._count_mismatch ∧
      (OnFileFinished c d file)._count_unknown = d._count_unknown ∧
      (OnFileFinished c d file)._count_error = d._count_error) ∨
    ((OnFileFinished c d file)._count_match = d._count_match ∧
      (OnFileFinished c d file)._count_mismatch = d._count_mismatch + 1 ∧
      (OnFileFinished c d file)._count_unknown = d._count_unknown ∧
      (OnFileFinished c d file)._count_error = d._count_error) ∨
    ((OnFileFinished c d file)._count_match = d._count_match ∧
      (OnFileFinished c d file)._count_mismatch = d._count_mismatch ∧
      (OnFileFinished c d file)._count_unknown = d._count_unknown + 1 ∧
      (OnFileFinished c d file)._count_error = d._count_error) ∨
    ((OnFileFinished c d file)._count_match = d._count_match ∧
      (OnFileFinished c d file)._count_mismatch = d._count_mismatch ∧
      (OnFileFinished c d file)._count_unknown = d._count_unknown ∧
      (OnFileFinished c d file)._count_error = d._count_error + 1) := by
  have hm := count_OnFileFinished c d file Counter.cMatch
  have hmm := count_OnFileFinished c d file Counter.cMismatch
  have hu := count_OnFileFinished c d file Counter.cUnknown
  have he := count_OnFileFinished c d file Counter.cError
  simp only [count] at hm hmm hu he
  rw [hm, hmm, hu, he]
  by_cases e0 : file.error = 0
  · rw [if_pos e0]
    by_cases h1 : file.matchState = c.MatchState_None
    · rw [if_pos h1]
      simp
    · by_cases h2 : file.matchState = c.MatchState_Mismatch
      · rw [if_neg h1, if_pos h2]
        simp
      · rw [if_neg h1, if_neg h2]
        simp
  · rw [if_neg e0]
    simp

end MainDialog

namespace MainDialog

theorem findAlgorithm_some (result : Nat → List Nat) (find_hash : List Nat) (n : Nat) :
    ∀ (i j : Nat), findAlgorithm result find_hash n i = some j →
      i ≤ j ∧ j < i + n ∧ result j ≠ [] ∧ result j = find_hash ∧
      ∀ j', i ≤ j' → j' < j → ¬ (result j' ≠ [] ∧ result j' = find_hash) := by
  induction n with
  | zero => intro i j h; simp [findAlgorithm] at h
  | succ n ih =>
    intro i j h
    rw [findAlgorithm] at h
    by_cases hp : result i ≠ [] ∧ result i = find_hash
    · rw [if_pos hp] at h
      have hij : i = j := Option.some.inj h
      subst hij
      exact ⟨le_refl _, by omega, hp.1, hp.2, fun j' h1 h2 => by omega⟩
    · rw [if_neg hp] at h
      obtain ⟨a, b, c1, c2, e⟩ := ih (i + 1) j h
      refine ⟨by omega, by omega, c1, c2, fun j' h1 h2 => ?_⟩
      by_cases hj' : j' = i
      · rw [hj']; exact hp
      · exact e j' (by omega) h2

theorem findAlgorithm_none (result : Nat → List Nat) (find_hash : List Nat) (n : Nat) :
    ∀ (i : Nat), findAlgorithm result find_hash n i = none →
      ∀ j, i ≤ j → j < i + n → ¬ (result j ≠ [] ∧ result j = find_hash) := by
  induction n with
  | zero => intro i _ j h1 h2; omega
  | succ n ih =>
    intro i h j h1 h2
    rw [findAlgorithm] at h
    by_cases hp : result i ≠ [] ∧ result i = find_hash
    · rw [if_pos hp] at h; exact absurd h (by simp)
    · rw [if_neg hp] at h
      by_cases hj : j = i
      · rw [hj]; exact hp
      · exact ih (i + 1) h j (by omega) (by omega)

theorem IsHit_cons_zero (c : Consts) (file : FileHashTask) (rest : List FileHashTask)
    (find_hash : List Nat) (i : Nat) :
    IsHit c (file :: rest) find_hash 0 i ↔
      i < c.k_count ∧ file.hashResult i ≠ [] ∧ file.hashResult i = find_hash := by
  unfold IsHit
  constructor
  · rintro ⟨f, hf, h⟩
    have : file = f := by simpa using hf
    subst this
    exact h
  · intro h
    exact ⟨file, by simp, h⟩

theorem IsHit_cons_succ (c : Consts) (file : FileHashTask) (rest : List FileHashTask)
    (find_hash : List Nat) (u i : Nat) :
    IsHit c (file :: rest) find_hash (u + 1) i ↔ IsHit c rest find_hash u i := by
  unfold IsHit
  simp only [List.getElem?_cons_succ]

theorem findFile_some (c : Consts) (find_hash : List Nat) (files : List FileHashTask) :
    ∀ (t0 t i : Nat) (file : FileHashTask),
      findFile c.k_count find_hash files t0 = some (t, i, file) →
      ∃ u, t = t0 + u ∧ files[u]? = some file ∧ IsHit c files find_hash u i ∧
        ∀ u' i', IsHit c files find_hash u' i' → u < u' ∨ (u = u' ∧ i ≤ i') := by
  induction files with
  | nil => intro t0 t i file h; simp [findFile] at h
  | cons f rest ih =>
    intro t0 t i file h
    rw [findFile] at h
    cases hfa : findAlgorithm f.hashResult find_hash c.k_count 0 with
    | some j =>
      rw [hfa] at h
      simp only [Option.some.injEq, Prod.mk.injEq] at h
      obtain ⟨rfl, rfl, rfl⟩ := h
      obtain ⟨_, hlt, c1, c2, hfirst⟩ := findAlgorithm_some _ _ _ _ _ hfa
      refine ⟨0, rfl, by simp, (IsHit_cons_zero c _ rest find_hash _).2 ⟨by omega, c1, c2⟩, ?_⟩
      intro u' i' hhit
      cases u' with
      | zero =>
        right
        refine ⟨rfl, ?_⟩
        obtain ⟨_, d1, d2⟩ := (IsHit_cons_zero c _ rest find_hash i').1 hhit
        by_contra hlt'
        exact hfirst i' (Nat.zero_le _) (by omega) ⟨d1, d2⟩
      | succ v => left; omega
    | none =>
      rw [hfa] at h
      obtain ⟨u, hu, hget, hhit, hfirst⟩ := ih (t0 + 1) t i file h
      refine ⟨u + 1, by omega, by simpa using hget,
        (IsHit_cons_succ c f rest find_hash u i).2 hhit, ?_⟩
      intro u' i' hhit'
      cases u' with
      | zero =>
        obtain ⟨d0, d1, d2⟩ := (IsHit_cons_zero c f rest find_hash i').1 hhit'
        exact absurd ⟨d1, d2⟩ (findAlgorithm_none _ _ _ _ hfa i' (Nat.zero_le _) (by omega))
      | succ v =>
        rcases hfirst v i' ((IsHit_cons_succ c f rest find_hash v i').1 hhit') with h1 | ⟨h1, h2⟩
        · left; omega
        · right; exact ⟨by omega, h2⟩

theorem findFile_none (c : Consts) (find_hash : List Nat) (files : List FileHashTask) :
    ∀ (t0 : Nat), findFile c.k_count find_hash files t0 = none →
      ∀ u i, ¬ IsHit c files find_hash u i := by
  induction files with
  | nil =>
    intro t0 _ u i hhit
    obtain ⟨f, hf, _⟩ := hhit
    simp at hf
  | cons f rest ih =>
    intro t0 h u i hhit
    rw [findFile] at h
    cases hfa : findAlgorithm f.hashResult find_hash c.k_count 0 with
    | some j => rw [hfa] at h; simp at h
    | none =>
      rw [hfa] at h
      cases u with
      | zero =>
        obtain ⟨d0, d1, d2⟩ := (IsHit_cons_zero c f rest find_hash i).1 hhit
        exact findAlgorithm_none _ _ _ _ hfa i (Nat.zero_le _) (by omega) ⟨d1, d2⟩
      | succ v => exact ih (t0 + 1) h v i ((IsHit_cons_succ c f rest find_hash v i).1 hhit)

theorem OnHashEditChanged_nomatch (c : Consts) (d : MainDialog)
    (h : ∀ t i, ¬ IsHit c d.files (utl.HashStringToBytes d.EDIT_HASH) t i) :
    (OnHashEditChanged c d).STATIC_CHECK_RESULT = CheckResultText.nomatch := by
  cases hf : findFile c.k_count (utl.HashStringToBytes d.EDIT_HASH) d.files 0 with
  | none => simp only [OnHashEditChanged, hf]
  | some r =>
    obtain ⟨t, i, file⟩ := r
    obtain ⟨u, _, _, hhit, _⟩ := findFile_some c _ _ 0 t i file hf
    exact absurd hhit (h u i)

/-- C9. For every task list and every typed digest text, `OnHashEditChanged`
reports a match exactly when some task has a non-empty result, for some
algorithm, that is byte-equal to the decoded digest; the pair it reports is
the first such one in task-list order and, within that task, the one with the
lowest algorithm index; otherwise it shows the no-match text. In particular an
empty decoded digest, and a digest whose length is the length of no computed
result, give the no-match text. -/
theorem OnHashEditChanged_first_hit (c : Consts) (d : MainDialog) :
    ((∃ t i, IsHit c d.files (utl.HashStringToBytes d.EDIT_HASH) t i) →
      ∃ t i file, d.files[t]? = some file ∧
        IsHit c d.files (utl.HashStringToBytes d.EDIT_HASH) t i ∧
        (∀ t' i', IsHit c d.files (utl.HashStringToBytes d.EDIT_HASH) t' i' →
          t < t' ∨ (t = t' ∧ i ≤ i')) ∧
        (OnHashEditChanged c d).STATIC_CHECK_RESULT
          = CheckResultText.found i file.displayName) ∧
    ((¬ ∃ t i, IsHit c d.files (utl.HashStringToBytes d.EDIT_HASH) t i) →
      (OnHashEditChanged c d).STATIC_CHECK_RESULT = CheckResultText.nomatch) ∧
    (utl.HashStringToBytes d.EDIT_HASH = [] →
      (OnHashEditChanged c d).STATIC_CHECK_RESULT = CheckResultText.nomatch) ∧
    ((∀ file ∈ d.files, ∀ i, i < c.k_count →
        (file.hashResult i).length ≠ (utl.HashStringToBytes d.EDIT_HASH).length) →
      (OnHashEditChanged c d).STATIC_CHECK_RESULT = CheckResultText.nomatch) := by
  refine ⟨?_, ?_, ?_, ?_⟩
  · rintro ⟨t, i, hhit⟩
    cases hf : findFile c.k_count (utl.HashStringToBytes d.EDIT_HASH) d.files 0 with
    | none => exact absurd hhit (findFile_none c _ _ 0 hf t i)
    | some r =>
      obtain ⟨t1, i1, file⟩ := r
      obtain ⟨u, _, hget, hhit1, hfirst⟩ := findFile_some c _ _ 0 t1 i1 file hf
      refine ⟨u, i1, file, hget, hhit1, hfirst, ?_⟩
      simp only [OnHashEditChanged, hf]
  · intro h
    exact OnHashEditChanged_nomatch c d fun t i hhit => h ⟨t, i, hhit⟩
  · intro h
    refine OnHashEditChanged_nomatch c d fun t i hhit => ?_
    obtain ⟨f, _, _, hne, heq⟩ := hhit
    exact hne (heq.trans h)
  · intro h
    refine OnHashEditChanged_nomatch c d fun t i hhit => ?_
    obtain ⟨f, hget, hi, _, heq⟩ := hhit
    exact h f (List.getElem?_mem hget) i hi (by rw [heq])

end MainDialog

namespace MainDialog

theorem OnHashEditChanged_first_hit_witness :
    (OnHashEditChanged ⟨-1, -2, 3⟩
        { start [⟨0, -1, fun i => if i = 2 then [0xDE, 0xAD, 0xBE, 0xEF] else [0x11], utl.lit "a"⟩,
                 ⟨0, -1, fun _ => [0xDE, 0xAD, 0xBE, 0xEF], utl.lit "b"⟩] with
          EDIT_HASH := utl.lit "deadbeef" }).STATIC_CHECK_RESULT
      = CheckResultText.found 2 (utl.lit "a") ∧
    (OnHashEditChanged ⟨-1, -2, 3⟩
        { start [⟨0, -1, fun _ => [0xDE, 0xAD, 0xBE, 0xEF], utl.lit "b"⟩] with
          EDIT_HASH := utl.lit "xyz" }).STATIC_CHECK_RESULT
      = CheckResultText.nomatch ∧
    IsHit ⟨-1, -2, 3⟩
      [⟨0, -1, fun i => if i = 2 then [0xDE, 0xAD, 0xBE, 0xEF] else [0x11], utl.lit "a"⟩,
       ⟨0, -1, fun _ => [0xDE, 0xAD, 0xBE, 0xEF], utl.lit "b"⟩]
      [0xDE, 0xAD, 0xBE, 0xEF] 0 2 :=
  ⟨by decide,
    (OnHashEditChanged_first_hit ⟨-1, -2, 3⟩
      { start [⟨0, -1, fun _ => [0xDE, 0xAD, 0xBE, 0xEF], utl.lit "b"⟩] with
        EDIT_HASH := utl.lit "xyz" }).2.2.1 (by decide),
    by decide⟩

end MainDialog

namespace utl

theorem decodeFrom_cstr (l : List Int) (i byte : Nat) (res : List Nat) :
    decodeFrom (cstr l) i byte res = decodeFrom l i byte res := by
  induction l generalizing i byte res with
  | nil => rfl
  | cons c rest ih =>
    unfold cstr at ih ⊢
    by_cases h0 : c = 0
    · subst h0
      simp [decodeFrom]
    · rw [List.takeWhile_cons_of_pos (by simpa using h0), decodeFrom, decodeFrom]
      simp only [ih]

theorem HashStringToBytes_cstr (s : List Int) :
    HashStringToBytes (cstr s) = HashStringToBytes s := by
  unfold HashStringToBytes
  induction s with
  | nil => rfl
  | cons c rest ih =>
    by_cases h0 : c = 0
    · subst h0
      simp [cstr, skipNonHex, decodeFrom]
    · have hc : cstr (c :: rest) = c :: cstr rest := by
        unfold cstr
        rw [List.takeWhile_cons_of_pos (by simpa using h0)]
      rw [hc, skipNonHex, skipNonHex]
      by_cases hx : c = 0 ∨ unhex c ≠ 0xFF
      · rw [if_pos hx, if_pos hx, ← hc, decodeFrom_cstr]
      · rw [if_neg hx, if_neg hx]
        exact ih

theorem cstr_of_no_nul (s : List Int) (h : ∀ x ∈ s, x ≠ 0) : cstr s = s := by
  unfold cstr
  rw [List.takeWhile_eq_self_iff]
  intro x hx
  simpa using h x hx

end utl

namespace MainDialog

theorem UpdateDefaultStatus_frame (d : MainDialog) (force_reset : Bool) :
    (d.UpdateDefaultStatus force_reset).EDIT_HASH = d.EDIT_HASH ∧
    (d.UpdateDefaultStatus force_reset).STATIC_CHECK_RESULT = d.STATIC_CHECK_RESULT ∧
    (d.UpdateDefaultStatus force_reset).files = d.files := by
  unfold UpdateDefaultStatus
  cases force_reset <;> simp only <;> split_ifs <;> exact ⟨rfl, rfl, rfl⟩

theorem OnHashEditChanged_congr (c : Consts) (d d' : MainDialog) (hf : d.files = d'.files)
    (he : utl.HashStringToBytes d.EDIT_HASH = utl.HashStringToBytes d'.EDIT_HASH) :
    (OnHashEditChanged c d).STATIC_CHECK_RESULT = (OnHashEditChanged c d').STATIC_CHECK_RESULT := by
  simp only [OnHashEditChanged, hf, he]
  cases findFile c.k_count (utl.HashStringToBytes d'.EDIT_HASH) d'.files 0 <;> rfl

theorem OnHashEditChanged_EDIT_HASH (c : Consts) (d : MainDialog) :
    (OnHashEditChanged c d).EDIT_HASH = d.EDIT_HASH := by
  simp only [OnHashEditChanged]
  cases findFile c.k_count (utl.HashStringToBytes d.EDIT_HASH) d.files 0 <;> rfl

/-- C10. When all files have finished, `OnAllFilesFinished` accepts the
clipboard text as a digest exactly when `HashStringToBytes` of it has at least
4 bytes: then the text (as the C string `clip.c_str()`, which is the whole text
when it holds no NUL) becomes the text of the hash edit box and the check
result is the one the hash check gives for that text; otherwise the edit box
and the check result are left as they were. -/
theorem OnAllFilesFinished_clipboard (c : Consts) (d : MainDialog) (clip : List Int) :
    ((utl.HashStringToBytes clip).length ≥ 4 →
      (OnAllFilesFinished c d clip).EDIT_HASH = utl.cstr clip ∧
      ((∀ x ∈ clip, x ≠ 0) → (OnAllFilesFinished c d clip).EDIT_HASH = clip) ∧
      (OnAllFilesFinished c d clip).STATIC_CHECK_RESULT
        = (OnHashEditChanged c { d with EDIT_HASH := clip }).STATIC_CHECK_RESULT) ∧
    ((utl.HashStringToBytes clip).length < 4 →
      (OnAllFilesFinished c d clip).EDIT_HASH = d.EDIT_HASH ∧
      (OnAllFilesFinished c d clip).STATIC_CHECK_RESULT = d.STATIC_CHECK_RESULT) := by
  constructor
  · intro h
    have hedit : (OnAllFilesFinished c d clip).EDIT_HASH = utl.cstr clip := by
      simp only [OnAllFilesFinished, if_pos h, OnHashEditChanged_EDIT_HASH]
    refine ⟨hedit, fun hn => by rw [hedit, utl.cstr_of_no_nul clip hn], ?_⟩
    simp only [OnAllFilesFinished, if_pos h]
    apply OnHashEditChanged_congr
    · exact (UpdateDefaultStatus_frame _ false).2.2
    · exact utl.HashStringToBytes_cstr clip
  · intro h
    have h' : ¬ (utl.HashStringToBytes clip).length ≥ 4 := by omega
    simp only [OnAllFilesFinished, if_neg h']
    exact ⟨(UpdateDefaultStatus_frame _ false).1, (UpdateDefaultStatus_frame _ false).2.1⟩

theorem OnAllFilesFinished_clipboard_witness :
    (OnAllFilesFinished ⟨-1, -2, 3⟩
        (start [⟨0, -1, fun _ => [0xDE, 0xAD, 0xBE, 0xEF], utl.lit "b"⟩])
        (utl.lit "deadbeef")).EDIT_HASH = utl.lit "deadbeef" ∧
    (OnAllFilesFinished ⟨-1, -2, 3⟩
        (start [⟨0, -1, fun _ => [0xDE, 0xAD, 0xBE, 0xEF], utl.lit "b"⟩])
        (utl.lit "deadbeef")).STATIC_CHECK_RESULT = CheckResultText.found 0 (utl.lit "b") ∧
    (OnAllFilesFinished ⟨-1, -2, 3⟩
        (start [⟨0, -1, fun _ => [0xDE, 0xAD, 0xBE], utl.lit "b"⟩])
        (utl.lit "deadbe")).STATIC_CHECK_RESULT = CheckResultText.other :=
  ⟨((OnAllFilesFinished_clipboard ⟨-1, -2, 3⟩
        (start [⟨0, -1, fun _ => [0xDE, 0xAD, 0xBE, 0xEF], utl.lit "b"⟩])
        (utl.lit "deadbeef")).1 (by decide)).2.1 (by decide),
    by decide, by decide⟩

end MainDialog

namespace MainDialog

theorem count_OnFileFinished_counterOf (c : Consts) (d : MainDialog) (file : FileHashTask)
    (k : Counter) :
    count (OnFileFinished c d file) k
      = count d k + (if k = counterOf c file then 1 else 0) := by
  rw [count_OnFileFinished]
  rfl

theorem count_handleAll (c : Consts) (events : List FileHashTask) (d : MainDialog) (k : Counter) :
    count (handleAll c d events) k
      = count d k + events.countP (fun file => decide (k = counterOf c file)) := by
  unfold handleAll
  induction events generalizing d with
  | nil => simp
  | cons file rest ih =>
    rw [List.foldl_cons, ih, count_OnFileFinished_counterOf, List.countP_cons]
    by_cases h : k = counterOf c file
    · simp [h]; omega
    · simp [h]

theorem sum_handleAll (c : Consts) (events : List FileHashTask) (d : MainDialog) :
    count (handleAll c d events) Counter.cMatch + count (handleAll c d events) Counter.cMismatch
      + count (handleAll c d events) Counter.cUnknown + count (handleAll c d events) Counter.cError
    = count d Counter.cMatch + count d Counter.cMismatch + count d Counter.cUnknown
      + count d Counter.cError + events.length := by
  unfold handleAll
  induction events generalizing d with
  | nil => simp
  | cons file rest ih =>
    rw [List.foldl_cons, ih, count_OnFileFinished_counterOf, count_OnFileFinished_counterOf,
      count_OnFileFinished_counterOf, count_OnFileFinished_counterOf, List.length_cons]
    cases counterOf c file <;> simp <;> omega

/-- C12. For the aggregate counters the completion events form an unordered
multiset: after `OnFileFinished` has handled a finite sequence of events, each
of the four counters is the same for every permutation of the sequence, and
the counters together have grown by the number of events handled (so from
all-zero counters their sum is that number). -/
theorem counters_order_independent (c : Consts) (d : MainDialog)
    (events events' : List FileHashTask) (hperm : events.Perm events') :
    (∀ k, count (handleAll c d events) k = count (handleAll c d events') k) ∧
    (handleAll c d events)._count_match + (handleAll c d events)._count_mismatch
      + (handleAll c d events)._count_unknown + (handleAll c d events)._count_error
    = d._count_match + d._count_mismatch + d._count_unknown + d._count_error
      + events.length := by
  constructor
  · intro k
    rw [count_handleAll, count_handleAll, hperm.countP_eq]
  · exact sum_handleAll c events d

theorem counters_order_independent_witness :
    [(⟨0, 1, fun _ => [], []⟩ : FileHashTask), ⟨0, -1, fun _ => [], []⟩].Perm
        [⟨0, -1, fun _ => [], []⟩, ⟨0, 1, fun _ => [], []⟩] ∧
    (∀ k, count (handleAll ⟨-1, -2, 3⟩ (start [])
            [⟨0, 1, fun _ => [], []⟩, ⟨0, -1, fun _ => [], []⟩]) k
        = count (handleAll ⟨-1, -2, 3⟩ (start [])
            [⟨0, -1, fun _ => [], []⟩, ⟨0, 1, fun _ => [], []⟩]) k) ∧
    (handleAll ⟨-1, -2, 3⟩ (start [])
        [⟨0, 1, fun _ => [], []⟩, ⟨0, -1, fun _ => [], []⟩])._count_match = 1 ∧
    (handleAll ⟨-1, -2, 3⟩ (start [])
        [⟨0, 1, fun _ => [], []⟩, ⟨0, -1, fun _ => [], []⟩])._count_mismatch = 0 ∧
    (handleAll ⟨-1, -2, 3⟩ (start [])
        [⟨0, 1, fun _ => [], []⟩, ⟨0, -1, fun _ => [], []⟩])._count_unknown = 1 ∧
    (handleAll ⟨-1, -2, 3⟩ (start [])
        [⟨0, 1, fun _ => [], []⟩, ⟨0, -1, fun _ => [], []⟩])._count_error = 0 ∧
    (handleAll ⟨-1, -2, 3⟩ (start [])
        [⟨0, -1, fun _ => [], []⟩, ⟨0, 1, fun _ => [], []⟩])._count_match = 1 ∧
    (handleAll ⟨-1, -2, 3⟩ (start [])
        [⟨0, -1, fun _ => [], []⟩, ⟨0, 1, fun _ => [], []⟩])._count_unknown = 1 :=
  ⟨List.Perm.swap _ _ _,
    (counters_order_independent ⟨-1, -2, 3⟩ (start []) _ _ (List.Perm.swap _ _ _)).1,
    by decide, by decide, by decide, by decide, by decide, by decide⟩

end MainDialog

/-! ## Theorems: versions and icon sizes -/

namespace utl

theorem Version.AsNumber_eq (v : Version) (h : v.InRange) :
    v.AsNumber = 2 ^ 32 * v.major + (2 ^ 16 * v.minor + v.patch) := by
  obtain ⟨h1, h2, h3⟩ := h
  unfold Version.AsNumber
  rw [Nat.shiftLeft_eq, Nat.shiftLeft_eq, Nat.mod_eq_of_lt (by omega), Nat.mod_eq_of_lt (by omega),
    Nat.or_assoc, Nat.mul_comm v.minor, Nat.mul_comm v.major,
    ← Nat.mul_add_lt_is_or h3, ← Nat.mul_add_lt_is_or (by omega)]

/-- C19. On versions whose members fit 16 bits, the comparison of
`utl::Version` is the lexicographic order on (major, minor, patch): `a < b`
exactly when the majors, then the minors, then the patches decide it;
`a == b` exactly when all three members are equal; `a > b` is `b < a`; and
exactly one of `a < b`, `a == b`, `a > b` holds. -/
theorem Version_compare_lexicographic (a b : Version) (ha : a.InRange) (hb : b.InRange) :
    (a.lt b = true ↔
      a.major < b.major ∨ (a.major = b.major ∧ a.minor < b.minor) ∨
        (a.major = b.major ∧ a.minor = b.minor ∧ a.patch < b.patch)) ∧
    (a.eq b = true ↔ a.major = b.major ∧ a.minor = b.minor ∧ a.patch = b.patch) ∧
    (a.gt b = true ↔ b.lt a = true) ∧
    ((a.lt b = true ∧ a.eq b = false ∧ a.gt b = false) ∨
      (a.lt b = false ∧ a.eq b = true ∧ a.gt b = false) ∨
      (a.lt b = false ∧ a.eq b = false ∧ a.gt b = true)) := by
  have ea := Version.AsNumber_eq a ha
  have eb := Version.AsNumber_eq b hb
  obtain ⟨a1, a2, a3⟩ := ha
  obtain ⟨b1, b2, b3⟩ := hb
  simp only [Version.lt, Version.eq, Version.gt, decide_eq_true_eq, decide_eq_false_iff_not, ea, eb]
  refine ⟨?_, ?_, ?_, ?_⟩
  · omega
  · omega
  · trivial
  · omega

theorem Version_compare_lexicographic_witness :
    (Version.mk 1 65535 65535).InRange ∧ (Version.mk 2 0 0).InRange ∧
      (Version.mk 1 65535 65535).lt (Version.mk 2 0 0) = true ∧
      (Version.mk 2 0 0).gt (Version.mk 1 65535 65535) = true ∧
      (Version.mk 3 1 4).eq (Version.mk 3 1 4) = true :=
  ⟨by decide, by decide,
    (Version_compare_lexicographic (Version.mk 1 65535 65535) (Version.mk 2 0 0)
      (by decide) (by decide)).1.2 (Or.inl (by decide)),
    by decide, by decide⟩

theorem floorLoop_le (l : List Int) (size : Int) : floorLoop l size ≤ size := by
  induction l with
  | nil => exact le_refl _
  | cons w rest ih =>
    rw [floorLoop]
    split_ifs with h
    · exact h
    · exact ih

theorem floorLoop_mem (l : List Int) (size : Int) (h : ∃ v ∈ l, v ≤ size) :
    floorLoop l size ∈ l := by
  induction l with
  | nil => obtain ⟨v, hv, _⟩ := h; simp at hv
  | cons w rest ih =>
    rw [floorLoop]
    split_ifs with hw
    · exact List.mem_cons_self w rest
    · obtain ⟨v, hv, hle⟩ := h
      rcases List.mem_cons.1 hv with rfl | hv'
      · exact absurd hle hw
      · exact List.mem_cons_of_mem w (ih ⟨v, hv', hle⟩)

theorem floorLoop_of_lt (l : List Int) (size : Int) (h : ∀ v ∈ l, size < v) :
    floorLoop l size = size := by
  induction l with
  | nil => rfl
  | cons w rest ih =>
    have hw : ¬ size ≥ w := by have := h w (List.mem_cons_self w rest); omega
    rw [floorLoop, if_neg hw]
    exact ih fun v hv => h v (List.mem_cons_of_mem w hv)

theorem floorLoop_greatest (l : List Int) (size : Int) (hs : l.Pairwise fun a b => a > b) :
    ∀ v ∈ l, v ≤ size → v ≤ floorLoop l size := by
  induction l with
  | nil => intro v hv; simp at hv
  | cons w rest ih =>
    intro v hv hle
    rw [floorLoop]
    obtain ⟨hw, hrest⟩ := List.pairwise_cons.1 hs
    split_ifs with h
    · rcases List.mem_cons.1 hv with rfl | hv'
      · exact le_refl _
      · exact le_of_lt (hw v hv')
    · rcases List.mem_cons.1 hv with rfl | hv'
      · exact absurd hle h
      · exact ih hrest v hv' hle

theorem icon_sizes_descending : icon_sizes.Pairwise fun a b => a > b := by
  decide

theorem icon_sizes_ge : ∀ v ∈ icon_sizes, (16 : Int) ≤ v := by
  decide

/-- C20. For every `size` of at least 16, `FloorIconSize` returns the largest
entry of the table 256, 192, 128, 96, 64, 48, 40, 32, 24, 16 that does not
exceed `size`; for every `size` below 16, zero and negative values included,
it returns `size` unchanged; so the result never exceeds `size` and applying
the function twice gives the same as applying it once. -/
theorem FloorIconSize_spec (size : Int) :
    (16 ≤ size →
      FloorIconSize size ∈ icon_sizes ∧ FloorIconSize size ≤ size ∧
        ∀ v ∈ icon_sizes, v ≤ size → v ≤ FloorIconSize size) ∧
    (size < 16 → FloorIconSize size = size) ∧
    FloorIconSize size ≤ size ∧
    FloorIconSize (FloorIconSize size) = FloorIconSize size := by
  have hlow : size < 16 → FloorIconSize size = size := fun h =>
    floorLoop_of_lt icon_sizes size fun v hv => by have := icon_sizes_ge v hv; omega
  have hmem : 16 ≤ size → FloorIconSize size ∈ icon_sizes := fun h =>
    floorLoop_mem icon_sizes size ⟨16, by decide, h⟩
  refine ⟨fun h => ⟨hmem h, floorLoop_le _ _,
    floorLoop_greatest icon_sizes size icon_sizes_descending⟩, hlow, floorLoop_le _ _, ?_⟩
  by_cases h : 16 ≤ size
  · apply le_antisymm (floorLoop_le _ _)
    exact floorLoop_greatest icon_sizes (FloorIconSize size) icon_sizes_descending _ (hmem h)
      (le_refl _)
  · rw [hlow (by omega), hlow (by omega)]

end utl

/-! ## Theorems: row colours and rows -/

/-- C17. For every task whose match state is an `int` and every algorithm
index, `HashColorTypeForFile` is: Error if the error code is non-zero, whatever
the match state; otherwise Mismatch if the match state is Mismatch, whatever
the algorithm; otherwise, if the match state is the algorithm index `hasher`,
Match when that algorithm is secure and Insecure when it is not; otherwise
Unknown. The constant None is not an algorithm index. -/
theorem HashColorTypeForFile_spec (c : Consts) (g : Hashers) (file : FileHashTask)
    (hasher : Nat) (hnone : c.MatchState_None < 0) (hbits : 32 ≤ g.size_bits)
    (hint : -2 ^ 31 ≤ file.matchState ∧ file.matchState < 2 ^ 31)
    (hidx : hasher < c.k_count) (hk : c.k_count ≤ 2 ^ 31) :
    (file.error ≠ 0 → HashColorTypeForFile c g file hasher = HashColorType.Error) ∧
    (file.error = 0 → file.matchState = c.MatchState_Mismatch →
      HashColorTypeForFile c g file hasher = HashColorType.Mismatch) ∧
    (file.error = 0 → file.matchState ≠ c.MatchState_Mismatch →
      file.matchState = (hasher : Int) →
      HashColorTypeForFile c g file hasher
        = if g.IsSecure hasher then HashColorType.Match else HashColorType.Insecure) ∧
    (file.error = 0 → file.matchState ≠ c.MatchState_Mismatch →
      file.matchState ≠ (hasher : Int) →
      HashColorTypeForFile c g file hasher = HashColorType.Unknown) := by
  have hpow : (2 : Int) ^ 32 ≤ 2 ^ g.size_bits := by
    exact_mod_cast Nat.pow_le_pow_right (by norm_num) hbits
  have hpos : (0 : Int) < 2 ^ g.size_bits := by positivity
  refine ⟨?_, ?_, ?_, ?_⟩
  · intro he
    simp only [HashColorTypeForFile, if_pos he]
  · intro he hm
    have he' : ¬ file.error ≠ 0 := fun h => h he
    simp only [HashColorTypeForFile, if_neg he', if_pos hm]
  · intro he hm heq
    have he' : ¬ file.error ≠ 0 := fun h => h he
    have hcond : file.matchState ≠ c.MatchState_None ∧
        (file.matchState % 2 ^ g.size_bits).toNat = hasher := by
      constructor
      · rw [heq]; omega
      · rw [heq, Int.emod_eq_of_lt (by omega) (by omega)]
        simp
    simp only [HashColorTypeForFile, if_neg he', if_neg hm, if_pos hcond]
  · intro he hm hneq
    have he' : ¬ file.error ≠ 0 := fun h => h he
    have hcond : ¬ (file.matchState ≠ c.MatchState_None ∧
        (file.matchState % 2 ^ g.size_bits).toNat = hasher) := by
      rintro ⟨_, hcast⟩
      by_cases hneg : file.matchState < 0
      · have hadd : file.matchState % 2 ^ g.size_bits = file.matchState + 2 ^ g.size_bits := by
          rw [← Int.add_emod_self, Int.emod_eq_of_lt (by omega) (by omega)]
        rw [hadd] at hcast
        omega
      · rw [Int.emod_eq_of_lt (by omega) (by omega)] at hcast
        omega
    simp only [HashColorTypeForFile, if_neg he', if_neg hm, if_neg hcond]

theorem HashColorTypeForFile_spec_witness :
    ((-1 : Int) < 0) ∧ (32 ≤ 64) ∧ (-2 ^ 31 ≤ (1 : Int) ∧ (1 : Int) < 2 ^ 31) ∧
    HashColorTypeForFile ⟨-1, -2, 3⟩ ⟨fun i => decide (i = 0), 64⟩
        ⟨0, 1, fun _ => [], []⟩ 1 = HashColorType.Insecure ∧
    HashColorTypeForFile ⟨-1, -2, 3⟩ ⟨fun i => decide (i = 0), 64⟩
        ⟨0, 1, fun _ => [], []⟩ 0 = HashColorType.Unknown ∧
    HashColorTypeForFile ⟨-1, -2, 3⟩ ⟨fun i => decide (i = 0), 64⟩
        ⟨0, 0, fun _ => [], []⟩ 0 = HashColorType.Match ∧
    HashColorTypeForFile ⟨-1, -2, 3⟩ ⟨fun i => decide (i = 0), 64⟩
        ⟨5, -2, fun _ => [], []⟩ 0 = HashColorType.Error :=
  ⟨by decide, by decide, by decide,
    (HashColorTypeForFile_spec ⟨-1, -2, 3⟩ ⟨fun i => decide (i = 0), 64⟩
      ⟨0, 1, fun _ => [], []⟩ 1 (by decide) (by decide) (by decide) (by decide)
      (by decide)).2.2.1 rfl (by decide) rfl,
    by decide, by decide, by decide⟩

namespace utl

theorem cstr_cons_of_ne (c : Int) (rest : List Int) (h : c ≠ 0) :
    cstr (c :: rest) = c :: cstr rest := by
  unfold cstr
  rw [List.takeWhile_cons_of_pos (by simpa using h)]

theorem hexDigitChar_ne_zero (upper : Bool) : ∀ n : Nat, n < 16 → hexDigitChar n upper ≠ 0 := by
  cases upper <;> decide

theorem cstr_HashBytesToString (k : CharKind) (upper : Bool) (b : List Nat) (hb : IsBytes b) :
    cstr (HashBytesToString k b upper) = hexString b upper := by
  induction b with
  | nil => rw [HashBytesToString_nil]; rfl
  | cons x l ih =>
    have hx : x < 256 := hb x (List.mem_cons_self x l)
    have hl : IsBytes l := fun y hy => hb y (List.mem_cons_of_mem x hy)
    obtain ⟨a1, a2⟩ := nibbles_arith x hx
    rw [HashBytesToString_cons, a1, a2, hex_eq_hexDigitChar k upper _ (by omega),
      hex_eq_hexDigitChar k upper _ (by omega),
      cstr_cons_of_ne _ _ (hexDigitChar_ne_zero upper _ (by omega)),
      cstr_cons_of_ne _ _ (hexDigitChar_ne_zero upper _ (by omega)), ih hl]
    rfl

end utl

namespace MainDialog

theorem addResultRow_settings (file : FileHashTask) (d : MainDialog) (i : Nat) :
    (addResultRow file d i).settings = d.settings := by
  unfold addResultRow
  simp only
  split_ifs <;> rfl

theorem foldl_addResultRow_rows (file : FileHashTask) (hb : ∀ i, utl.IsBytes (file.hashResult i))
    (l : List Nat) (d : MainDialog) :
    (l.foldl (addResultRow file) d).HASH_LIST
      = d.HASH_LIST ++
        (l.filter fun i => decide (file.hashResult i ≠ [])).map fun i =>
          { filename := utl.cstr file.displayName
            algorithm := AlgorithmText.hasherName i
            hash := HashText.digest
              (utl.hexString (file.hashResult i) d.settings.display_uppercase)
            lparam := some (file, i) } := by
  induction l generalizing d with
  | nil => simp
  | cons i l ih =>
    rw [List.foldl_cons, ih, addResultRow_settings]
    by_cases hne : file.hashResult i ≠ []
    · rw [List.filter_cons_of_pos (by simpa using hne)]
      simp only [addResultRow, if_pos hne, AddItemToFileList, List.map_cons,
        utl.cstr_HashBytesToString _ _ _ (hb i), List.append_assoc, List.singleton_append]
    · rw [List.filter_cons_of_neg (by simpa using hne)]
      simp only [addResultRow, if_neg hne]

theorem UpdateDefaultStatus_HASH_LIST (d : MainDialog) (force_reset : Bool) :
    (d.UpdateDefaultStatus force_reset).HASH_LIST = d.HASH_LIST := by
  unfold UpdateDefaultStatus
  cases force_reset <;> simp only <;> split_ifs <;> rfl

/-- C18. Rows added per completion event, for a task whose result slots hold
bytes: `OnFileFinished` appends to the list exactly the rows of `specRows`: for
an error-free task one row for each algorithm index with a non-empty result,
in increasing index order, carrying the hex of that result in the casing of
`settings.display_uppercase` and the tag (task, index), and no row for an empty
slot; for a task with a non-zero error code exactly one row, tagged with index
0, whatever the slots hold. An error-free completion, with or without results,
leaves the error counter as it was, and one with no results adds no row. -/
theorem OnFileFinished_rows (c : Consts) (d : MainDialog) (file : FileHashTask)
    (hb : ∀ i, utl.IsBytes (file.hashResult i)) :
    (OnFileFinished c d file).HASH_LIST
      = d.HASH_LIST ++ specRows c d.settings.display_uppercase file ∧
    (file.error = 0 → (OnFileFinished c d file)._count_error = d._count_error) ∧
    (file.error = 0 → (∀ i, i < c.k_count → file.hashResult i = []) →
      (OnFileFinished c d file).HASH_LIST = d.HASH_LIST) ∧
    (file.error ≠ 0 →
      ∃ row, (OnFileFinished c d file).HASH_LIST = d.HASH_LIST ++ [row] ∧
        row.lparam = some (file, 0)) := by
  have hrows : (OnFileFinished c d file).HASH_LIST
      = d.HASH_LIST ++ specRows c d.settings.display_uppercase file := by
    unfold OnFileFinished specRows
    by_cases he : file.error = 0
    · simp only [if_pos he]
      rw [UpdateDefaultStatus_HASH_LIST, foldl_addResultRow_rows file hb]
      split_ifs <;> rfl
    · simp only [if_neg he]
      rw [UpdateDefaultStatus_HASH_LIST]
      rfl
  refine ⟨hrows, ?_, ?_, ?_⟩
  · intro he
    have hne : Counter.cError ≠ counterOf c file := by
      unfold counterOf
      rw [if_pos he]
      split_ifs <;> decide
    have h := count_OnFileFinished_counterOf c d file Counter.cError
    rw [if_neg hne] at h
    exact h
  · intro he hempty
    rw [hrows]
    unfold specRows
    rw [if_pos he]
    have : ((List.range c.k_count).filter fun i => decide (file.hashResult i ≠ [])) = [] := by
      rw [List.filter_eq_nil_iff]
      intro i hi
      simp [hempty i (List.mem_range.1 hi)]
    rw [this]
    simp
  · intro he
    rw [hrows]
    unfold specRows
    rw [if_neg he]
    exact ⟨_, rfl, rfl⟩

end MainDialog

/-! ## Theorems: reputation lookup -/

namespace vt

theorem recordChild_isSome (m : List Int → Option Result) (j_child : JsonChild)
    (key : List Int) :
    (recordChild m j_child key).isSome = true ↔
      (m key).isSome = true ∨ key ∈ recordedKeys [j_child] := by
  obtain ⟨found, hash, pl, pos, tot⟩ := j_child
  rcases found with _ | (b | s | n | _) <;> rcases hash with _ | (b' | h | n' | _) <;>
    simp only [recordChild, recordedKeys, List.filterMap_cons, List.filterMap_nil,
      List.not_mem_nil, or_false, List.mem_singleton]
  by_cases hk : key = h
  · simp [hk]
  · simp [hk]

theorem recordedKeys_cons (j_child : JsonChild) (rest : List JsonChild) (key : List Int) :
    key ∈ recordedKeys (j_child :: rest) ↔
      key ∈ recordedKeys [j_child] ∨ key ∈ recordedKeys rest := by
  obtain ⟨found, hash, pl, pos, tot⟩ := j_child
  rcases found with _ | (b | s | n | _) <;> rcases hash with _ | (b' | h | n' | _) <;>
    simp [recordedKeys]

theorem foldl_recordChild_isSome (children : List JsonChild) (m : List Int → Option Result)
    (key : List Int) :
    (children.foldl recordChild m key).isSome = true ↔
      (m key).isSome = true ∨ key ∈ recordedKeys children := by
  induction children generalizing m with
  | nil => simp [recordedKeys]
  | cons j_child rest ih =>
    rw [List.foldl_cons, ih, recordChild_isSome, recordedKeys_cons j_child rest, or_assoc]

theorem collect_files_acc (m : List Int → Option Result) (algo : Nat)
    (files : List FileHashTask) (acc : List Result) :
    (files.foldl
        (fun result f =>
          match m (hashKey algo f) with
          | some res => result ++ [{ res with file := some f }]
          | none => result)
        acc).map (fun r => r.file)
      = acc.map (fun r => r.file)
        ++ (files.filter fun f => (m (hashKey algo f)).isSome).map some := by
  induction files generalizing acc with
  | nil => simp
  | cons f rest ih =>
    rw [List.foldl_cons, ih]
    cases hm : m (hashKey algo f) with
    | none => simp [hm]
    | some res => simp [hm]

theorem hashKey_eq (algo : Nat) (f : FileHashTask) (hb : utl.IsBytes (f.hashResult algo)) :
    hashKey algo f = utl.hexString (f.hashResult algo) true :=
  utl.cstr_HashBytesToString _ _ _ hb

/-- C14. For every task list whose digests for the chosen algorithm are byte
vectors and every well-formed reply (no transport error, status 200, a `data`
array), `vt::Query` returns a list, and that list is an order-preserving
sub-list of the input: its `file` members are, in input order, exactly the
tasks whose upper-case hex digest string is a hash key recorded from the
reply, each input position contributing at most one entry; so the result may
be partial or empty and is never longer than the input. -/
theorem Query_order_preserving (files : List FileHashTask) (algo : Nat) (reply : Reply)
    (first : JsonChild) (rest : List JsonChild)
    (hb : ∀ f ∈ files, utl.IsBytes (f.hashResult algo))
    (herr : reply.error_code = 0) (hcode : reply.http_code = 200)
    (hroot : reply.root = some (JsonData.array first rest)) :
    ∃ result, Query files algo reply = Except.ok result ∧
      result.map (fun r => r.file)
        = (files.filter fun f =>
            decide (utl.hexString (f.hashResult algo) true ∈ recordedKeys (first :: rest))).map
            some ∧
      (files.filter fun f =>
          decide (utl.hexString (f.hashResult algo) true ∈ recordedKeys (first :: rest))).Sublist
        files ∧
      result.length ≤ files.length := by
  have hq : Query files algo reply
      = Except.ok (collect ((first :: rest).foldl recordChild fun _ => none) algo files) := by
    unfold Query
    rw [if_neg (by simp [herr]), if_neg (by simp [hcode]), hroot]
  have hfiles : (collect ((first :: rest).foldl recordChild fun _ => none) algo files).map
        (fun r => r.file)
      = (files.filter fun f =>
          decide (utl.hexString (f.hashResult algo) true ∈ recordedKeys (first :: rest))).map
          some := by
    unfold collect
    rw [collect_files_acc, List.map_nil, List.nil_append]
    congr 1
    apply List.filter_congr
    intro f hf
    rw [← hashKey_eq algo f (hb f hf)]
    have h := foldl_recordChild_isSome (first :: rest) (fun _ => none) (hashKey algo f)
    simp only [Option.isSome_none, Bool.false_eq_true, false_or] at h
    rw [Bool.eq_iff_iff, h]
    simp
  refine ⟨_, hq, hfiles, List.filter_sublist _, ?_⟩
  have hlen := congrArg List.length hfiles
  rw [List.length_map, List.length_map] at hlen
  rw [hlen]
  exact List.length_filter_le _ _

end vt

/-! ## Theorems: reputation button, colours, message sequences -/

namespace MainDialog

theorem vtTaskList_acc (files acc : List FileHashTask) :
    files.foldl (fun l f => if f.error = 0 then l ++ [f] else l) acc
      = acc ++ files.filter fun f => decide (f.error = 0) := by
  induction files generalizing acc with
  | nil => simp
  | cons f rest ih =>
    rw [List.foldl_cons, ih]
    by_cases he : f.error = 0
    · simp [he]
    · simp [he]

theorem CheckForToS_frame (settings : Settings) (answerYes : Bool) :
    (CheckForToS settings answerYes).1.algorithms = settings.algorithms ∧
    (CheckForToS settings answerYes).1.display_uppercase = settings.display_uppercase := by
  unfold CheckForToS
  simp only
  split_ifs <;> exact ⟨rfl, rfl⟩

/-- C15. The task list that `OnVTClicked` hands to the reputation lookup holds
exactly the tasks of the file list of the coordinator whose error code is 0,
in their original order, so no task with an error is submitted: whenever the
terms are accepted and an algorithm is chosen, what the handler does is what
it does with `vt::Query` applied to that filtered list. -/
theorem OnVTClicked_submits_error_free (v : VTIndices) (d : MainDialog) (answerYes : Bool)
    (reply : vt.Reply) :
    vtTaskList d.files = d.files.filter (fun f => decide (f.error = 0)) ∧
    (∀ f ∈ vtTaskList d.files, f.error = 0) ∧
    (vtTaskList d.files).Sublist d.files ∧
    (∀ algo, (CheckForToS d.settings answerYes).2 = true →
      [v.SHA256, v.SHA1, v.MD5].find? (fun a => d.settings.algorithms a) = some algo →
      OnVTClicked v d answerYes reply
        = vtOutcome { d with settings := (CheckForToS d.settings answerYes).1 }
            (vt.Query (d.files.filter fun f => decide (f.error = 0)) algo reply)) := by
  have hl : vtTaskList d.files = d.files.filter (fun f => decide (f.error = 0)) := by
    unfold vtTaskList
    rw [vtTaskList_acc, List.nil_append]
  refine ⟨hl, ?_, ?_, ?_⟩
  · intro f hf
    rw [hl] at hf
    simpa using (List.mem_filter.1 hf).2
  · rw [hl]
    exact List.filter_sublist _
  · intro algo htos hfind
    unfold OnVTClicked
    simp only [htos, if_true, (CheckForToS_frame d.settings answerYes).1, hfind, hl]

end MainDialog

namespace MainDialog

theorem OnVTClicked_submits_error_free_witness :
    (vtTaskList
        [⟨0, -1, fun _ => [], utl.lit "a"⟩, ⟨5, -1, fun _ => [], utl.lit "b"⟩,
          ⟨0, 2, fun _ => [], utl.lit "c"⟩]).map (fun f => f.displayName)
      = [utl.lit "a", utl.lit "c"] ∧
    ∀ f ∈ vtTaskList
        [⟨0, -1, fun _ => [], utl.lit "a"⟩, ⟨5, -1, fun _ => [], utl.lit "b"⟩,
          ⟨0, 2, fun _ => [], utl.lit "c"⟩], f.error = 0 :=
  ⟨by decide,
    (OnVTClicked_submits_error_free ⟨0, 1, 2⟩
      (start [⟨0, -1, fun _ => [], utl.lit "a"⟩, ⟨5, -1, fun _ => [], utl.lit "b"⟩,
        ⟨0, 2, fun _ => [], utl.lit "c"⟩])
      true ⟨0, 200, none⟩).2.1⟩

/-- C16. The secure flag never influences correctness: for two tables that
differ only in `IsSecure`, every message, `WM_USER_FILE_FINISHED` included,
leaves the same dialog state (same counters, same rows), and
`HashColorTypeForFile` returns the same value except that, on the row of the
matching algorithm of an error-free task, Match and Insecure may be
exchanged. -/
theorem secure_flag_presentation_only (c : Consts) (v : VTIndices)
    (secure secure' : Nat → Bool) (bits : Nat) (d : MainDialog) (file : FileHashTask)
    (hasher : Nat) :
    (DlgProc c ⟨secure, bits⟩ v d (Msg.fileFinished file)).1
      = (DlgProc c ⟨secure', bits⟩ v d (Msg.fileFinished file)).1 ∧
    (∀ m, (DlgProc c ⟨secure, bits⟩ v d m).1 = (DlgProc c ⟨secure', bits⟩ v d m).1) ∧
    (HashColorTypeForFile c ⟨secure, bits⟩ file hasher
        = HashColorTypeForFile c ⟨secure', bits⟩ file hasher ∨
      (file.error = 0 ∧ file.matchState ≠ c.MatchState_Mismatch ∧
        file.matchState ≠ c.MatchState_None ∧
        (file.matchState % 2 ^ bits).toNat = hasher ∧ secure hasher ≠ secure' hasher ∧
        (HashColorTypeForFile c ⟨secure, bits⟩ file hasher = HashColorType.Match ∨
          HashColorTypeForFile c ⟨secure, bits⟩ file hasher = HashColorType.Insecure) ∧
        (HashColorTypeForFile c ⟨secure', bits⟩ file hasher = HashColorType.Match ∨
          HashColorTypeForFile c ⟨secure', bits⟩ file hasher = HashColorType.Insecure))) := by
  refine ⟨rfl, fun m => by cases m <;> rfl, ?_⟩
  unfold HashColorTypeForFile
  by_cases he : file.error ≠ 0
  · left
    simp only [if_pos he]
  · by_cases hm : file.matchState = c.MatchState_Mismatch
    · left
      simp only [if_neg he, if_pos hm]
    · by_cases hcond : file.matchState ≠ c.MatchState_None ∧
          (file.matchState % 2 ^ bits).toNat = hasher
      · simp only [if_neg he, if_neg hm, if_pos hcond]
        by_cases hs : secure hasher = secure' hasher
        · left
          simp only [hs]
        · right
          refine ⟨by simpa using he, hm, hcond.1, hcond.2, hs, ?_, ?_⟩
          · split_ifs
            · exact Or.inl rfl
            · exact Or.inr rfl
          · split_ifs
            · exact Or.inl rfl
            · exact Or.inr rfl
      · left
        simp only [if_neg he, if_neg hm, if_neg hcond]

end MainDialog

namespace MainDialog

theorem secure_flag_presentation_only_witness :
    HashColorTypeForFile ⟨-1, -2, 3⟩ ⟨fun _ => true, 64⟩ ⟨0, 1, fun _ => [], []⟩ 1
      = HashColorType.Match ∧
    HashColorTypeForFile ⟨-1, -2, 3⟩ ⟨fun _ => false, 64⟩ ⟨0, 1, fun _ => [], []⟩ 1
      = HashColorType.Insecure ∧
    (DlgProc ⟨-1, -2, 3⟩ ⟨fun _ => true, 64⟩ ⟨0, 1, 2⟩ (start [])
        (Msg.fileFinished ⟨0, 1, fun _ => [], []⟩)).1
      = (DlgProc ⟨-1, -2, 3⟩ ⟨fun _ => false, 64⟩ ⟨0, 1, 2⟩ (start [])
        (Msg.fileFinished ⟨0, 1, fun _ => [], []⟩)).1 :=
  ⟨by decide, by decide,
    (secure_flag_presentation_only ⟨-1, -2, 3⟩ ⟨0, 1, 2⟩ (fun _ => true) (fun _ => false) 64
      (start []) ⟨0, 1, fun _ => [], []⟩ 1).1⟩

theorem OnFileFinished_rows_witness :
    (∀ i, utl.IsBytes
      ((⟨0, -1, fun i => if i = 0 then [0xAB] else if i = 2 then [0x01, 0x2F] else [],
        utl.lit "a"⟩ : FileHashTask).hashResult i)) ∧
    (OnFileFinished ⟨-1, -2, 3⟩ (start [])
        ⟨0, -1, fun i => if i = 0 then [0xAB] else if i = 2 then [0x01, 0x2F] else [],
          utl.lit "a"⟩).HASH_LIST
      = (start []).HASH_LIST ++ specRows ⟨-1, -2, 3⟩ (start []).settings.display_uppercase
          ⟨0, -1, fun i => if i = 0 then [0xAB] else if i = 2 then [0x01, 0x2F] else [],
            utl.lit "a"⟩ ∧
    (OnFileFinished ⟨-1, -2, 3⟩ (start [])
        ⟨0, -1, fun i => if i = 0 then [0xAB] else if i = 2 then [0x01, 0x2F] else [],
          utl.lit "a"⟩).HASH_LIST.map (fun row => (row.algorithm, row.hash))
      = [(AlgorithmText.hasherName 0, HashText.digest (utl.lit "AB")),
         (AlgorithmText.hasherName 2, HashText.digest (utl.lit "012F"))] ∧
    (OnFileFinished ⟨-1, -2, 3⟩ (start [])
        ⟨5, -1, fun _ => [0xAB], utl.lit "a"⟩).HASH_LIST.map (fun row => (row.algorithm, row.hash))
      = [(AlgorithmText.errorLabel, HashText.errorMessage 5)] :=
  ⟨by intro i; simp only; split_ifs <;> decide,
    (OnFileFinished_rows ⟨-1, -2, 3⟩ (start [])
      ⟨0, -1, fun i => if i = 0 then [0xAB] else if i = 2 then [0x01, 0x2F] else [], utl.lit "a"⟩
      (by intro i; simp only; split_ifs <;> decide)).1,
    by decide, by decide⟩

end MainDialog

namespace vt

theorem Query_order_preserving_witness :
    (∀ f ∈ [(⟨0, -1, fun _ => [0xAB, 0xCD], utl.lit "a"⟩ : FileHashTask),
        ⟨0, -1, fun _ => [0x01], utl.lit "b"⟩, ⟨0, -1, fun _ => [0xAB, 0xCD], utl.lit "c"⟩],
      utl.IsBytes (f.hashResult 0)) ∧
    (∃ result,
      Query [⟨0, -1, fun _ => [0xAB, 0xCD], utl.lit "a"⟩, ⟨0, -1, fun _ => [0x01], utl.lit "b"⟩,
          ⟨0, -1, fun _ => [0xAB, 0xCD], utl.lit "c"⟩] 0
        ⟨0, 200, some (JsonData.array
          ⟨some (JsonValue.boolean true), some (JsonValue.text (utl.lit "ABCD")), none,
            some (JsonValue.integer 3), some (JsonValue.integer 70)⟩
          [⟨some (JsonValue.boolean false), some (JsonValue.text []), none, none, none⟩])⟩
        = Except.ok result ∧ result.length ≤ 3) ∧
    (match Query [⟨0, -1, fun _ => [0xAB, 0xCD], utl.lit "a"⟩,
          ⟨0, -1, fun _ => [0x01], utl.lit "b"⟩,
          ⟨0, -1, fun _ => [0xAB, 0xCD], utl.lit "c"⟩] 0
        ⟨0, 200, some (JsonData.array
          ⟨some (JsonValue.boolean true), some (JsonValue.text (utl.lit "ABCD")), none,
            some (JsonValue.integer 3), some (JsonValue.integer 70)⟩
          [⟨some (JsonValue.boolean false), some (JsonValue.text []), none, none, none⟩])⟩ with
      | Except.ok result => result.map fun r => (r.file.map fun f => f.displayName, r.positives)
      | Except.error _ => [])
      = [(some (utl.lit "a"), 3), (some (utl.lit "c"), 3)] :=
  ⟨by decide,
    (Query_order_preserving
      [⟨0, -1, fun _ => [0xAB, 0xCD], utl.lit "a"⟩, ⟨0, -1, fun _ => [0x01], utl.lit "b"⟩,
        ⟨0, -1, fun _ => [0xAB, 0xCD], utl.lit "c"⟩] 0
      ⟨0, 200, some (JsonData.array
        ⟨some (JsonValue.boolean true), some (JsonValue.text (utl.lit "ABCD")), none,
          some (JsonValue.integer 3), some (JsonValue.integer 70)⟩
        [⟨some (JsonValue.boolean false), some (JsonValue.text []), none, none, none⟩])⟩
      _ _ (by decide) rfl rfl rfl).elim fun result h => ⟨result, h.1, h.2.2.2⟩,
    by decide⟩

end vt

/-! ## Theorems: paths and error texts -/

namespace utl

theorem wcsncmp_uncStart (a b : Int) (t : List Int) :
    wcsncmp (a :: b :: t) uncStart 2 = 0 ↔ a = 0x5C ∧ b = 0x5C := by
  simp only [wcsncmp, uncStart, List.headD_cons, List.tail_cons]
  split_ifs <;> constructor <;> intro h <;> first | exact h.elim | omega

/-- C21. A path that begins with two backslashes is returned unchanged by
`MakePathLongCompatible`, and every other path is returned with the four
characters backslash, backslash, question mark, backslash in front; so the
result always begins with two backslashes, always ends with the original path,
and applying the function twice gives the same as applying it once. -/
theorem MakePathLongCompatible_spec (p : List Int) :
    ((∃ t, p = 0x5C :: 0x5C :: t) → MakePathLongCompatible p = p) ∧
    ((¬ ∃ t, p = 0x5C :: 0x5C :: t) →
      MakePathLongCompatible p = [0x5C, 0x5C, 0x3F, 0x5C] ++ p) ∧
    (∃ t, MakePathLongCompatible p = 0x5C :: 0x5C :: t) ∧
    (∃ s, MakePathLongCompatible p = s ++ p) ∧
    MakePathLongCompatible (MakePathLongCompatible p) = MakePathLongCompatible p := by
  have hunc : ∀ t : List Int, MakePathLongCompatible (0x5C :: 0x5C :: t) = 0x5C :: 0x5C :: t := by
    intro t
    unfold MakePathLongCompatible
    have h0 : wcsncmp (0x5C :: 0x5C :: t) uncStart 2 = 0 := (wcsncmp_uncStart _ _ t).2 ⟨rfl, rfl⟩
    simp only [uncStart, List.length_cons, List.length_nil] at h0 ⊢
    rw [if_neg]
    rintro (h | h)
    · omega
    · exact h h0.symm
  have hother : (¬ ∃ t, p = 0x5C :: 0x5C :: t) →
      MakePathLongCompatible p = [0x5C, 0x5C, 0x3F, 0x5C] ++ p := by
    intro hno
    unfold MakePathLongCompatible
    simp only [uncStart, List.length_cons, List.length_nil]
    rw [if_pos]
    · rfl
    · match p, hno with
      | [], _ => left; simp
      | [_], _ => left; simp
      | a :: b :: t, hno =>
        right
        intro h0
        obtain ⟨ha, hb⟩ := (wcsncmp_uncStart a b t).1 h0.symm
        exact hno ⟨t, by rw [ha, hb]⟩
  by_cases h : ∃ t, p = 0x5C :: 0x5C :: t
  · obtain ⟨t, rfl⟩ := h
    refine ⟨fun _ => hunc t, fun hno => absurd ⟨t, rfl⟩ hno, ⟨t, hunc t⟩, ⟨[], ?_⟩, ?_⟩
    · rw [hunc t]; rfl
    · rw [hunc t, hunc t]
  · have e := hother h
    refine ⟨fun h' => absurd h' h, hother, ⟨0x3F :: 0x5C :: p, ?_⟩,
      ⟨[0x5C, 0x5C, 0x3F, 0x5C], e⟩, ?_⟩
    · rw [e]; rfl
    · rw [e]
      exact hunc _

theorem findLastNotOfBelow_some (s chars : List Int) (n p : Nat)
    (h : findLastNotOfBelow s chars n = some p) :
    p < n ∧ s.getD p 0 ∉ chars ∧ ∀ j, p < j → j < n → s.getD j 0 ∈ chars := by
  induction n with
  | zero => simp [findLastNotOfBelow] at h
  | succ n ih =>
    rw [findLastNotOfBelow] at h
    by_cases hc : s.getD n 0 ∈ chars
    · rw [if_pos hc] at h
      obtain ⟨h1, h2, h3⟩ := ih h
      refine ⟨by omega, h2, fun j hj hjn => ?_⟩
      by_cases e : j = n
      · rw [e]; exact hc
      · exact h3 j hj (by omega)
    · rw [if_neg hc] at h
      have e : n = p := Option.some.inj h
      subst e
      exact ⟨by omega, hc, fun j hj hjn => by omega⟩

theorem findLastNotOfBelow_none (s chars : List Int) (n : Nat)
    (h : findLastNotOfBelow s chars n = none) :
    ∀ j, j < n → s.getD j 0 ∈ chars := by
  induction n with
  | zero => intro j hj; omega
  | succ n ih =>
    rw [findLastNotOfBelow] at h
    by_cases hc : s.getD n 0 ∈ chars
    · rw [if_pos hc] at h
      intro j hj
      by_cases e : j = n
      · rw [e]; exact hc
      · exact ih h j (by omega)
    · rw [if_neg hc] at h
      exact absurd h (by simp)

theorem mem_newlines (x : Int) : x ∈ [(0x0D : Int), 0x0A] ↔ IsNewline x := by
  unfold IsNewline
  simp

/-- C22. With the system message text `m` as input, `ErrorToString` returns
`m` unchanged when `m` is empty or holds only CR and LF characters; otherwise
there is a last character of `m` that is not CR or LF, at some index `p`, and
the result is the first `p` characters of `m`: the trailing line breaks are
removed together with that last other character. For `Access is denied.`
followed by CR LF the result is `Access is denied`. -/
theorem ErrorToString_spec (m : List Int) :
    ((∀ x ∈ m, IsNewline x) → ErrorToString m = m) ∧
    ((¬ ∀ x ∈ m, IsNewline x) →
      ∃ p, p < m.length ∧ ¬ IsNewline (m.getD p 0) ∧
        (∀ j, p < j → j < m.length → IsNewline (m.getD j 0)) ∧
        ErrorToString m = m.take p) ∧
    (∀ p, p < m.length → ¬ IsNewline (m.getD p 0) →
      (∀ j, p < j → j < m.length → IsNewline (m.getD j 0)) →
      ErrorToString m = m.take p) ∧
    ErrorToString (lit "Access is denied.\r\n") = lit "Access is denied" := by
  have hsome : ∀ q, find_last_not_of m [0x0D, 0x0A] = some q →
      q < m.length ∧ ¬ IsNewline (m.getD q 0) ∧
        (∀ j, q < j → j < m.length → IsNewline (m.getD j 0)) := by
    intro q hq
    obtain ⟨h1, h2, h3⟩ := findLastNotOfBelow_some m _ _ q hq
    exact ⟨h1, fun hn => h2 ((mem_newlines _).2 hn), fun j hj hjn => (mem_newlines _).1 (h3 j hj hjn)⟩
  have hnone : find_last_not_of m [0x0D, 0x0A] = none → ∀ x ∈ m, IsNewline x := by
    intro hq x hx
    obtain ⟨j, hj, rfl⟩ := List.getElem_of_mem hx
    have := findLastNotOfBelow_none m _ _ hq j hj
    rw [List.getD_eq_getElem _ _ hj] at this
    exact (mem_newlines _).1 this
  refine ⟨?_, ?_, ?_, by decide⟩
  · intro hall
    unfold ErrorToString
    cases hq : find_last_not_of m [0x0D, 0x0A] with
    | none => rfl
    | some q =>
      obtain ⟨h1, h2, _⟩ := hsome q hq
      rw [List.getD_eq_getElem _ _ h1] at h2
      exact absurd (hall _ (List.getElem_mem h1)) h2
  · intro hnot
    cases hq : find_last_not_of m [0x0D, 0x0A] with
    | none => exact absurd (hnone hq) hnot
    | some q =>
      obtain ⟨h1, h2, h3⟩ := hsome q hq
      refine ⟨q, h1, h2, h3, ?_⟩
      unfold ErrorToString
      rw [hq]
  · intro p hp hpn hafter
    cases hq : find_last_not_of m [0x0D, 0x0A] with
    | none =>
      have := hnone hq (m.getD p 0) (by rw [List.getD_eq_getElem _ _ hp]; exact List.getElem_mem hp)
      exact absurd this hpn
    | some q =>
      obtain ⟨h1, h2, h3⟩ := hsome q hq
      have e : q = p := by
        rcases Nat.lt_trichotomy q p with h | h | h
        · exact absurd (h3 p h hp) hpn
        · exact h
        · exact absurd (hafter q h h1) h2
      unfold ErrorToString
      rw [hq, e]

end utl

/-! ## Theorems: algorithm of the reputation lookup -/

namespace MainDialog

theorem vtOutcome_error_rows (d : MainDialog) (e : vt.QueryError) :
    (vtOutcome d (Except.error e)).1.HASH_LIST = d.HASH_LIST := rfl

/-- C23. For every mask of enabled algorithms, the algorithm `OnVTClicked`
uses for the lookup, once the terms are accepted, is the first enabled one in
the order SHA-256, SHA-1, MD5: the handler does what it does with `vt::Query`
called for that algorithm. When none of the three is enabled the outcome does
not depend on the reply (no lookup), the list keeps its rows, and the box shown
after accepted terms is the one for no compatible algorithm. -/
theorem OnVTClicked_algorithm_priority (v : VTIndices) (d : MainDialog) (answerYes : Bool)
    (reply : vt.Reply) :
    ((CheckForToS d.settings answerYes).2 = true → d.settings.algorithms v.SHA256 = true →
      OnVTClicked v d answerYes reply
        = vtOutcome { d with settings := (CheckForToS d.settings answerYes).1 }
            (vt.Query (vtTaskList d.files) v.SHA256 reply)) ∧
    ((CheckForToS d.settings answerYes).2 = true → d.settings.algorithms v.SHA256 = false →
      d.settings.algorithms v.SHA1 = true →
      OnVTClicked v d answerYes reply
        = vtOutcome { d with settings := (CheckForToS d.settings answerYes).1 }
            (vt.Query (vtTaskList d.files) v.SHA1 reply)) ∧
    ((CheckForToS d.settings answerYes).2 = true → d.settings.algorithms v.SHA256 = false →
      d.settings.algorithms v.SHA1 = false → d.settings.algorithms v.MD5 = true →
      OnVTClicked v d answerYes reply
        = vtOutcome { d with settings := (CheckForToS d.settings answerYes).1 }
            (vt.Query (vtTaskList d.files) v.MD5 reply)) ∧
    (d.settings.algorithms v.SHA256 = false → d.settings.algorithms v.SHA1 = false →
      d.settings.algorithms v.MD5 = false →
      OnVTClicked v d answerYes reply
        = ({ d with settings := (CheckForToS d.settings answerYes).1 },
            if (CheckForToS d.settings answerYes).2 = true
              then some VTMessage.noCompatibleAlgorithm else none) ∧
      (OnVTClicked v d answerYes reply).1.HASH_LIST = d.HASH_LIST) := by
  have ha := (CheckForToS_frame d.settings answerYes).1
  refine ⟨?_, ?_, ?_, ?_⟩
  · intro htos h1
    unfold OnVTClicked
    simp only [htos, if_true, ha, List.find?, h1]
  · intro htos h1 h2
    unfold OnVTClicked
    simp only [htos, if_true, ha, List.find?, h1, h2]
  · intro htos h1 h2 h3
    unfold OnVTClicked
    simp only [htos, if_true, ha, List.find?, h1, h2, h3]
  · intro h1 h2 h3
    have e : OnVTClicked v d answerYes reply
        = ({ d with settings := (CheckForToS d.settings answerYes).1 },
            if (CheckForToS d.settings answerYes).2 = true
              then some VTMessage.noCompatibleAlgorithm else none) := by
      unfold OnVTClicked
      by_cases htos : (CheckForToS d.settings answerYes).2 = true
      · simp only [htos, if_true, ha, List.find?, h1, h2, h3]
      · simp only [htos, if_false, Bool.false_eq_true]
    exact ⟨e, by rw [e]⟩

theorem OnVTClicked_algorithm_priority_witness :
    (OnVTClicked ⟨0, 1, 2⟩
        { start [⟨0, -1, fun i => if i = 1 then [0xAB] else [0x01], utl.lit "a"⟩] with
          settings := ⟨true, fun i => decide (i ≠ 0), true⟩ }
        false
        ⟨0, 200, some (vt.JsonData.array
          ⟨some (vt.JsonValue.boolean false), some (vt.JsonValue.text (utl.lit "AB")),
            none, none, none⟩ [])⟩).1.HASH_LIST.map (fun row => (row.algorithm, row.hash))
      = [(AlgorithmText.vt, HashText.notFound)] ∧
    (OnVTClicked ⟨0, 1, 2⟩
        { start [⟨0, -1, fun i => if i = 1 then [0xAB] else [0x01], utl.lit "a"⟩] with
          settings := ⟨true, fun _ => false, true⟩ }
        false
        ⟨0, 200, some (vt.JsonData.array
          ⟨some (vt.JsonValue.boolean false), some (vt.JsonValue.text (utl.lit "AB")),
            none, none, none⟩ [])⟩).1.HASH_LIST
      = (start [⟨0, -1, fun i => if i = 1 then [0xAB] else [0x01], utl.lit "a"⟩]).HASH_LIST :=
  ⟨by decide,
    ((OnVTClicked_algorithm_priority ⟨0, 1, 2⟩
        { start [⟨0, -1, fun i => if i = 1 then [0xAB] else [0x01], utl.lit "a"⟩] with
          settings := ⟨true, fun _ => false, true⟩ }
        false
        ⟨0, 200, some (vt.JsonData.array
          ⟨some (vt.JsonValue.boolean false), some (vt.JsonValue.text (utl.lit "AB")),
            none, none, none⟩ [])⟩).2.2.2 rfl rfl rfl).2⟩

end MainDialog

/-! ## Theorems: settings dialog -/

namespace SettingsDialog

/-- C24. An `LVN_ITEMCHANGED` notification for the algorithm list that
arrives while `_done_setup` is false leaves the whole dialog, and so every
setting, unchanged and returns `FALSE`. Once `_done_setup` is true, such a
notification for a row sets the enabled flag of the algorithm attached to that
row to the check state of the row, and changes no other algorithm flag, none
of the check-box settings and not the VirusTotal flag. -/
theorem algorithm_toggle_after_setup_only (c : Consts) (Idx : Nat → Nat)
    (current : utl.Version) (latest : Option utl.Version) (d : SettingsDialog) (iItem : Nat) :
    (d._done_setup = false →
      DlgProc c Idx current latest d (Message.WM_NOTIFY ControlId.ALGORITHM_LIST true iItem)
        = some ⟨d, false, none⟩) ∧
    (d._done_setup = true → ∀ row, d.ALGORITHM_LIST[iItem]? = some row →
      ∃ out,
        DlgProc c Idx current latest d (Message.WM_NOTIFY ControlId.ALGORITHM_LIST true iItem)
          = some out ∧
        out.dialog._settings.algorithms row.algorithmIdx = row.checked ∧
        (∀ j, j ≠ row.algorithmIdx →
          out.dialog._settings.algorithms j = d._settings.algorithms j) ∧
        (∀ box : SettingBox, box.get out.dialog._settings = box.get d._settings) ∧
        out.dialog._settings.virustotal_tos = d._settings.virustotal_tos) := by
  constructor
  · intro hsetup
    simp only [DlgProc, hsetup, Bool.false_eq_true, and_false, if_false]
  · intro hsetup row hrow
    refine ⟨{ dialog :=
                { d with
                  _settings :=
                    { d._settings with
                      algorithms := Function.update d._settings.algorithms row.algorithmIdx
                        row.checked } }
              result := true
              box := none }, ?_, ?_, ?_, ?_, ?_⟩
    · simp only [DlgProc, hsetup, and_self, if_true, hrow]
    · simp only [Function.update_same]
    · intro j hj
      simp only [Function.update_noteq hj]
    · intro box
      cases box <;> rfl
    · rfl

theorem algorithm_toggle_after_setup_only_witness :
    ((DlgProc ⟨-1, -2, 3⟩ id ⟨1, 2, 3⟩ none
        ⟨true, ⟨⟨true, fun _ => true, false⟩, true, true, true, true, true, true, true, true⟩,
          [⟨0, true⟩, ⟨1, false⟩, ⟨2, true⟩], fun _ => true, none⟩
        (Message.WM_NOTIFY ControlId.ALGORITHM_LIST true 1)).map fun out =>
      (out.dialog._settings.algorithms 0, out.dialog._settings.algorithms 1,
        out.dialog._settings.algorithms 2, out.dialog._settings.display_uppercase, out.result))
      = some (true, false, true, true, true) ∧
    ((DlgProc ⟨-1, -2, 3⟩ id ⟨1, 2, 3⟩ none
        ⟨false, ⟨⟨true, fun _ => true, false⟩, true, true, true, true, true, true, true, true⟩,
          [⟨0, true⟩, ⟨1, false⟩, ⟨2, true⟩], fun _ => true, none⟩
        (Message.WM_NOTIFY ControlId.ALGORITHM_LIST true 1)).map fun out =>
      (out.dialog._settings.algorithms 1, out.result))
      = some (true, false) :=
  ⟨by decide,
    by
      rw [(algorithm_toggle_after_setup_only ⟨-1, -2, 3⟩ id ⟨1, 2, 3⟩ none
        ⟨false, ⟨⟨true, fun _ => true, false⟩, true, true, true, true, true, true, true, true⟩,
          [⟨0, true⟩, ⟨1, false⟩, ⟨2, true⟩], fun _ => true, none⟩ 1).1 rfl]
      rfl⟩

end SettingsDialog
